import Mathlib

/-!
# Logfile.cc: the per-file log cache of mk-livestatus

A shallow embedding of `src/src/Logfile.cc`.

* `std::map<uint64_t, LogEntry *>` is an association list kept in strictly
  ascending key order (`Entries`); iterators are positions in that list.
* A file on disk is the list of its bytes, `none` when it cannot be opened.
  A `FILE *` is the byte list together with an offset.
* `time_t` is `Int`, `unsigned` and `uint32_t` are `Nat` reduced modulo `2^32`
  where the code can overflow, `uint64_t` is `Nat` reduced modulo `2^64`.
* The `LogEntry` constructor (LogEntry.cc) and the consumer
  `Query::processDataset` (Query.cc) are not part of the sources; they are
  parameters of the functions that call them.
* `TableLog::handleNewMessage` (TableLog.cc) is not part of the sources
  either; following the spec it is a notification, counted together with
  `num_cached_log_messages++`, that leaves the instance alone.
* The constructor does not initialise `_read_pos`; the value the member holds
  after construction is an argument of `Logfile.new`.
* The resume pass of `load` ignores the result of `fsetpos`; the embedding
  covers the seeks that succeed, and statements about the resume pass are made
  for such offsets.
* The loop of `freeMessages` erases the entry its iterator points to and then
  increments that iterator, which C++ leaves undefined. A call that erases an
  entry has no defined result (`none`); nothing is assumed about what an
  implementation of `std::map` does at that step.
-/

namespace Livestatus

/-! ## Data model -/

/-- The fields of `LogEntry` that `Logfile.cc` reads (`_time`, `_logclass`), the line
number handed to the constructor, and the text of the line as payload. -/
structure LogEntry where
  lineno : Nat
  time : Int
  logclass : Nat
  text : List Nat
deriving DecidableEq, Repr

/-- The type `_entries_t`, a `std::map<uint64_t, LogEntry *>`, as its sequence of
(key, entry) pairs in iteration order. -/
abbrev Entries := List (Nat × LogEntry)

/-- The members of class `Logfile`. The path is represented by the file
content passed to each operation; `_inode` is never read. -/
structure Logfile where
  since : Int
  watch : Bool
  logclasses_read : Nat
  read_pos : Nat
  entries : Entries
deriving DecidableEq, Repr

/-- The record parser: `new LogEntry(lineno, _linebuffer)`. The result `none` stands
for an entry whose `_logclass` is `LOGCLASS_INVALID`. -/
abbrev Parser := Nat → List Nat → Option LogEntry

/-- Modelled from the spec: the macro `MAX_LOGLINE` is defined in Logfile.h, which
is not part of the sources; the spec asks for a generous fixed bound on the line
length enforced by the reading primitive. -/
def MAX_LOGLINE : Nat := 65536

/-! ## Machine arithmetic -/

/-- The expression `~x` on a 32-bit `unsigned`. -/
def bnot32 (x : Nat) : Nat := 4294967295 ^^^ (x % 4294967296)

/-- The test `(1 << entry->_logclass) & logclasses`. The classes of LogEntry.h are
small numbers; a shift by 32 or more finds no bit in a mask of 32 bits. -/
def classBit (logclass : Nat) (logclasses : Nat) : Bool :=
  (1 <<< logclass) &&& logclasses != 0

/-- The function `Logfile::makeKey`:
`(uint64_t)((uint64_t)t << 32) | (uint64_t)lineno`. -/
def makeKey (t : Int) (lineno : Nat) : Nat :=
  (((t % 18446744073709551616).toNat <<< 32) % 18446744073709551616) ||| (lineno % 4294967296)

/-! ## The ordered map -/

/-- The call `_entries.find(key)`; `none` is `_entries.end()`. -/
def mapFind (key : Nat) : Entries → Option LogEntry
  | [] => none
  | (k, v) :: rest => if k = key then some v else mapFind key rest

/-- The call `_entries.insert(make_pair(key, entry))`: the pair is placed at its
position in key order; a key that is present keeps its old entry. -/
def mapInsert (key : Nat) (entry : LogEntry) : Entries → Entries
  | [] => [(key, entry)]
  | (k, v) :: rest =>
    if key < k then (key, entry) :: (k, v) :: rest
    else if key = k then (k, v) :: rest
    else (k, v) :: mapInsert key entry rest

/-- The call `_entries.erase(it)` for the iterator at key `key`. -/
def mapErase (key : Nat) : Entries → Entries
  | [] => []
  | (k, v) :: rest => if k = key then rest else (k, v) :: mapErase key rest

/-- The call `_entries.lower_bound(key)`: the entries from the first one whose key
is not less than `key` up to the end. -/
def lower_bound (key : Nat) : Entries → Entries
  | [] => []
  | (k, v) :: rest => if k < key then lower_bound key rest else (k, v) :: rest

/-- The call `_entries.upper_bound(key)`, as the entries that lie before the
returned iterator (those a loop of `--it` walks through), in map order. -/
def upper_bound (key : Nat) : Entries → Entries
  | [] => []
  | (k, v) :: rest => if key < k then [] else (k, v) :: upper_bound key rest

/-! ## Reading a file -/

/-- The successive results of `fgets(_linebuffer, MAX_LOGLINE, file)` until it
returns NULL. `cur` holds, newest first, the bytes already stored in the buffer
by the call in progress. A call ends after a newline, after `MAX_LOGLINE - 1`
bytes, or at the end of the file; it fails only when it has read nothing. -/
def fgetsAll : List Nat → List Nat → List (List Nat)
  | [], cur => if cur = [] then [] else [cur.reverse]
  | c :: cs, cur =>
    if c = 10 ∨ cur.length + 1 = MAX_LOGLINE - 1 then (c :: cur).reverse :: fgetsAll cs []
    else fgetsAll cs (c :: cur)

/-- The lines a loop of `fgets` reads from a stream positioned at offset `pos`. -/
def linesFrom (content : List Nat) (pos : Nat) : List (List Nat) :=
  fgetsAll (content.drop pos) []

/-- The value `fgetpos` stores after the stream was read to its end from `pos`. -/
def posAtEof (content : List Nat) (pos : Nat) : Nat := max pos content.length

/-! ## Logfile::processLogLine and Logfile::load -/

/-- The function `Logfile::processLogLine` on the line in `_linebuffer`. Returns the
new map and the function result. -/
def processLogLine (parse : Parser) (lineno : Nat) (logclasses : Nat) (line : List Nat)
    (entries : Entries) : Entries × Bool :=
  match parse lineno line with
  | none => (entries, false)
  | some entry =>
    if classBit entry.logclass logclasses then
      let key := makeKey entry.time lineno
      if mapFind key entries = none then (mapInsert key entry entries, true)
      else (entries, true)
    else (entries, false)

/-- The loop of `Logfile::load(FILE *, ...)` over the lines still to be read;
`lineno` is the `uint32_t` counter, `notified` counts the pairs of
`num_cached_log_messages++` and `tablelog->handleNewMessage(...)`. -/
def loadLoop (parse : Parser) (missing_types : Nat) :
    List (List Nat) → Nat → Entries → Nat → Entries × Nat
  | [], _, entries, notified => (entries, notified)
  | line :: rest, lineno, entries, notified =>
    let lineno1 := (lineno + 1) % 4294967296
    let r := processLogLine parse lineno1 missing_types line entries
    if r.2 then loadLoop parse missing_types rest lineno1 r.1 (notified + 1)
    else loadLoop parse missing_types rest lineno1 r.1 notified

/-- The function `Logfile::load(FILE *file, unsigned missing_types, ...)` on a stream
at offset `pos`: the new map, and the number of notifications. -/
def loadFile (parse : Parser) (content : List Nat) (pos : Nat) (missing_types : Nat)
    (entries : Entries) : Entries × Nat :=
  loadLoop parse missing_types (linesFrom content pos) 0 entries 0

/-- What one call of `Logfile::load` did: the new object state, the number of lines
handed to `processLogLine`, and the number of notifications
(`num_cached_log_messages++` with `handleNewMessage`). -/
structure LoadResult where
  st : Logfile
  parsed : Nat
  notified : Nat
deriving DecidableEq, Repr

/-- The function `Logfile::load(TableLog *, time_t since, time_t until, unsigned logclasses)`.
`file` is the content `fopen(_path, "r")` finds, `none` when it fails. In the
resume pass `fsetpos(file, &_read_pos)` is taken to succeed, so that reading
goes on at the offset `_read_pos`, also when that lies behind the end of the
file. The source ignores the result of `fsetpos`; where the call fails (an
offset that is negative as an `off_t` or larger than the file system allows) the
stream of the source stays at offset 0, which this definition does not cover:
statements about the resume pass are made for offsets at which the seek
succeeds. -/
def load (parse : Parser) (self : Logfile) (file : Option (List Nat))
    (_since _until : Int) (logclasses : Nat) : LoadResult :=
  let missing_types := logclasses &&& bnot32 self.logclasses_read
  if self.watch then
    match file with
    | none => ⟨self, 0, 0⟩
    | some content =>
      -- file might have grown: read all classes already read to the end of the file
      let s1 : LoadResult :=
        if self.logclasses_read ≠ 0 then
          let r := loadFile parse content self.read_pos self.logclasses_read self.entries
          ⟨{ self with entries := r.1, read_pos := posAtEof content self.read_pos },
            (linesFrom content self.read_pos).length, r.2⟩
        else ⟨self, 0, 0⟩
      if missing_types ≠ 0 then
        let r := loadFile parse content 0 missing_types s1.st.entries
        ⟨{ s1.st with entries := r.1,
                      logclasses_read := s1.st.logclasses_read ||| missing_types },
          s1.parsed + (linesFrom content 0).length, s1.notified + r.2⟩
      else s1
  else
    if missing_types = 0 then ⟨self, 0, 0⟩
    else
      match file with
      | none => ⟨self, 0, 0⟩
      | some content =>
        let r := loadFile parse content 0 missing_types self.entries
        ⟨{ self with entries := r.1,
                     logclasses_read := self.logclasses_read ||| missing_types },
          (linesFrom content 0).length, r.2⟩

/-! ## Construction, flush and freeMessages -/

/-- The C library test `isspace` in the C locale. -/
def isspace (c : Nat) : Bool := c = 32 ∨ (9 ≤ c ∧ c ≤ 13)

/-- The digit loop of `atoi`: accumulates decimal digits until the first byte that
is not a digit. -/
def atoiDigits : List Nat → Nat → Nat
  | [], acc => acc
  | c :: cs, acc => if 48 ≤ c ∧ c ≤ 57 then atoiDigits cs (acc * 10 + (c - 48)) else acc

/-- The conversion of a value to `int` (two's complement, 32 bits). -/
def toInt32 (v : Int) : Int := (v + 2147483648) % 4294967296 - 2147483648

/-- The C library function `atoi` on a NUL-terminated string given as its bytes
before the NUL: leading white space, an optional sign, decimal digits; the value
is converted to `int`. -/
def atoi (s : List Nat) : Int :=
  match s.dropWhile isspace with
  | 45 :: rest => toInt32 (- (atoiDigits rest 0 : Int))
  | 43 :: rest => toInt32 (atoiDigits rest 0 : Int)
  | rest => toInt32 (atoiDigits rest 0 : Int)

/-- The bytes of a C string stored in a buffer: those before the first NUL. -/
def cstr (buf : List Nat) : List Nat := buf.takeWhile (fun c => c != 0)

/-- The constructor `Logfile::Logfile(const char *path, bool watch)`. `file` is the
content `open(path, O_RDONLY)` finds, `none` when it fails. The constructor does
not initialise `_read_pos`; `pos0` is the indeterminate value the member holds. -/
def Logfile.new (file : Option (List Nat)) (watch : Bool) (pos0 : Nat) : Logfile :=
  let self : Logfile :=
    { since := 0, watch := watch, logclasses_read := 0, read_pos := pos0, entries := [] }
  match file with
  | none => self
  | some content =>
    let line := content.take 12
    if line.length ≠ 12 then self
    else if line.getD 0 0 ≠ 91 ∨ line.getD 11 0 ≠ 93 then self
    else { self with since := atoi (cstr ((line.drop 1).take 10)) }

/-- The function `Logfile::flush`. -/
def flush (self : Logfile) : Logfile :=
  { self with entries := [], logclasses_read := 0 }

/-- How the loop of `Logfile::freeMessages` ends: `finished` when the iterator
reaches `_entries.end()`, `undefined` when the loop header increments an iterator
whose entry the body has just erased, a step that C++ gives no meaning. Both
carry the map and the counter `freed` of that moment. -/
inductive FreeOutcome where
  | finished (entries : Entries) (freed : Nat)
  | undefined (entries : Entries) (freed : Nat)
deriving DecidableEq, Repr

/-- The loop of `Logfile::freeMessages`: `todo` are the entries from the iterator
`it` to `_entries.end()`, `entries` is the map, `freed` the counter. At an entry
whose class is not in `logclasses` the body does nothing and `++it` goes to the
next entry. At an entry whose class is in `logclasses` the body deletes the
record, erases `it` from the map and counts it; `_entries.erase(it)` invalidates
`it`, and the `++it` of the loop header that follows is undefined: the loop has
no defined continuation from there. -/
def freeLoop (logclasses : Nat) : Entries → Entries → Nat → FreeOutcome
  | [], entries, freed => FreeOutcome.finished entries freed
  | (k, entry) :: todo, entries, freed =>
    if classBit entry.logclass logclasses then
      FreeOutcome.undefined (mapErase k entries) (freed + 1)
    else freeLoop logclasses todo entries freed

/-- The function `Logfile::freeMessages(unsigned logclasses)`: the new state and the
returned count, `none` when the loop runs into the undefined increment, so that
the call has no defined result. -/
def freeMessages (self : Logfile) (logclasses : Nat) : Option (Logfile × Nat) :=
  match freeLoop logclasses self.entries self.entries 0 with
  | FreeOutcome.finished entries freed =>
    some ({ self with entries := entries,
                      logclasses_read := self.logclasses_read &&& bnot32 logclasses }, freed)
  | FreeOutcome.undefined _ _ => none

/-! ## Range queries -/

/-- The consumer `Query::processDataset`: from its state and an entry, the
answer (`true` to continue, `false` when the limit is exceeded) and its new
state. -/
abbrev Sink (σ : Type) := σ → LogEntry → Bool × σ

/-- What a scan did: the function result, the final state of the consumer, the
map items handed to `processDataset` in call order, and whether
`processDataset` answered `false`. -/
structure ScanResult (σ : Type) where
  result : Bool
  query : σ
  visited : Entries
  stopped : Bool

/-- The loop of `Logfile::answerQuery` from the iterator `it` to `_entries.end()`. -/
def scanForward {σ : Type} (processDataset : Sink σ) (until_ : Int) :
    Entries → σ → ScanResult σ
  | [], q => ⟨true, q, [], false⟩
  | (k, entry) :: rest, q =>
    if entry.time ≥ until_ then ⟨false, q, [], false⟩ -- end found
    else
      let a := processDataset q entry
      if a.1 = false then ⟨false, a.2, [(k, entry)], true⟩ -- limit exceeded
      else
        let r := scanForward processDataset until_ rest a.2
        ⟨r.result, r.query, (k, entry) :: r.visited, r.stopped⟩

/-- The loop of `Logfile::answerQueryReverse`; the argument lists the entries before
the iterator, nearest first, which `--it` steps through down to `_entries.begin()`. -/
def scanReverse {σ : Type} (processDataset : Sink σ) (since : Int) :
    Entries → σ → ScanResult σ
  | [], q => ⟨true, q, [], false⟩
  | (k, entry) :: before, q =>
    if entry.time < since then ⟨false, q, [], false⟩ -- end found
    else
      let a := processDataset q entry
      if a.1 = false then ⟨false, a.2, [(k, entry)], true⟩ -- limit exceeded
      else
        let r := scanReverse processDataset since before a.2
        ⟨r.result, r.query, (k, entry) :: r.visited, r.stopped⟩

/-- What a query did: the load it began with and the scan that followed. -/
structure QueryResult (σ : Type) where
  loaded : LoadResult
  scan : ScanResult σ

/-- The function `Logfile::answerQuery`. -/
def answerQuery {σ : Type} (parse : Parser) (processDataset : Sink σ) (self : Logfile)
    (file : Option (List Nat)) (query : σ) (since until_ : Int) (logclasses : Nat) :
    QueryResult σ :=
  let l := load parse self file since until_ logclasses -- make sure all messages are present
  let sincekey := makeKey since 0
  ⟨l, scanForward processDataset until_ (lower_bound sincekey l.st.entries) query⟩

/-- The function `Logfile::answerQueryReverse`. -/
def answerQueryReverse {σ : Type} (parse : Parser) (processDataset : Sink σ) (self : Logfile)
    (file : Option (List Nat)) (query : σ) (since until_ : Int) (logclasses : Nat) :
    QueryResult σ :=
  let l := load parse self file since until_ logclasses -- make sure all messages are present
  let untilkey := makeKey until_ 999999999
  ⟨l, scanReverse processDataset since (upper_bound untilkey l.st.entries).reverse query⟩

/-- A consumer without a limit: it answers `true` on every entry. -/
def continueSink : Sink Unit := fun q _ => (true, q)

/-! ## A sample parser and sample files -/

/-- The bytes of a text. -/
def bytes (s : String) : List Nat := s.data.map Char.toNat

/-- The line without its trailing newlines. -/
def stripNewlines (line : List Nat) : List Nat :=
  (line.reverse.dropWhile (fun c => c == 10)).reverse

/-- Modelled from the spec: the record parser (the `LogEntry` constructor) is not
part of the sources. This sample instance reads lines in the format of the
scenario of the spec: a bracketed ten-digit epoch, a blank, and then the
category as one letter, `A` for class 0 up to `G` for class 6; every other line
is invalid, and so is a line whose epoch is negative. The payload is the line
without its newline. -/
def sampleParser : Parser := fun lineno line =>
  let msg := stripNewlines (cstr line)
  let t := atoi (cstr ((msg.drop 1).take 10))
  let c := msg.getD 13 0
  if msg.length < 14 ∨ msg.getD 0 0 ≠ 91 ∨ msg.getD 11 0 ≠ 93 then none
  else if 65 ≤ c ∧ c ≤ 71 ∧ 0 ≤ t ∧ t < 4294967296 then
    some { lineno := lineno, time := t, logclass := c - 65, text := msg }
  else none

/-- A file of two lines, of class 0 (`A`) at time 1000000100 and of class 1 (`B`) at
time 1000000200. -/
def fileAB : List Nat :=
  bytes "[1000000100] A one\n[1000000200] B two\n"

/-! ## Predicates on states -/

/-- The keys of the map are strictly ascending, as in every `std::map`. -/
def KeysSorted (es : Entries) : Prop := es.Pairwise (fun a b => a.1 < b.1)

/-- Every entry has a time stamp of 32 bits and is stored under the key made
from that time stamp and a line number. -/
def KeysMade (es : Entries) : Prop :=
  ∀ x ∈ es, (0 ≤ x.2.time ∧ x.2.time < 4294967296) ∧ x.1 = makeKey x.2.time (x.1 % 4294967296)

/-- The map is in key order and every key is made from the time stamp of its entry. -/
def CacheWF (es : Entries) : Prop := KeysSorted es ∧ KeysMade es

instance (es : Entries) : Decidable (KeysSorted es) := by
  unfold KeysSorted; infer_instance

instance (es : Entries) : Decidable (CacheWF es) := by
  unfold CacheWF KeysSorted KeysMade; infer_instance

/-- The parser only yields time stamps of 32 bits. -/
def ParserInRange (parse : Parser) : Prop :=
  ∀ n line e, parse n line = some e → 0 ≤ e.time ∧ e.time < 4294967296

/-- Following the spec's words for a scan with a consumer: the records are
passed to the sink one at a time, and the scan halts immediately when the sink
signals stop. Returns the records passed, and whether the sink signalled stop. -/
def feedSink {σ : Type} (sink : Sink σ) : Entries → σ → Entries × Bool
  | [], _ => ([], false)
  | x :: rest, q =>
    if (sink q x.2).1 = false then ([x], true)
    else ((x :: (feedSink sink rest (sink q x.2).2).1), (feedSink sink rest (sink q x.2).2).2)

/-- The invariant of the data model: the class bit of every cached entry is set in
`_logclasses_read`. -/
def ReadCovers (st : Logfile) : Prop :=
  ∀ x ∈ st.entries, classBit x.2.logclass st.logclasses_read = true

instance (st : Logfile) : Decidable (ReadCovers st) := by
  unfold ReadCovers; infer_instance

/-- The states an instance can be in: a freshly constructed one, and those the
public operations lead to, whatever the file holds at each call and whatever
the arguments and the consumer are. A call of `freeMessages` leads to a state
only when it has a defined result. -/
inductive Reachable (parse : Parser) : Logfile → Prop
  | fresh (file : Option (List Nat)) (watch : Bool) (pos0 : Nat) :
      Reachable parse (Logfile.new file watch pos0)
  | load (st : Logfile) (file : Option (List Nat)) (since until_ : Int) (classes : Nat) :
      Reachable parse st → Reachable parse (load parse st file since until_ classes).st
  | freeMessages (st st2 : Logfile) (classes freed : Nat) :
      Reachable parse st → freeMessages st classes = some (st2, freed) → Reachable parse st2
  | flush (st : Logfile) :
      Reachable parse st → Reachable parse (flush st)
  | answerQuery {σ : Type} (sink : Sink σ) (st : Logfile) (file : Option (List Nat)) (q : σ)
      (since until_ : Int) (classes : Nat) :
      Reachable parse st →
      Reachable parse (answerQuery parse sink st file q since until_ classes).loaded.st
  | answerQueryReverse {σ : Type} (sink : Sink σ) (st : Logfile) (file : Option (List Nat))
      (q : σ) (since until_ : Int) (classes : Nat) :
      Reachable parse st →
      Reachable parse (answerQueryReverse parse sink st file q since until_ classes).loaded.st

/-- Following the spec's words: of the lines `lines`, the first of which has the
1-based index `n + 1`, the parseable records whose class is in `mask`, each under
the key made from its time stamp and the index of its line. -/
def recordsFrom (parse : Parser) (mask : Nat) : List (List Nat) → Nat → Entries
  | [], _ => []
  | line :: rest, n =>
    match parse (n + 1) line with
    | some e =>
      if classBit e.logclass mask then
        (makeKey e.time (n + 1), e) :: recordsFrom parse mask rest (n + 1)
      else recordsFrom parse mask rest (n + 1)
    | none => recordsFrom parse mask rest (n + 1)

/-- The parseable records of a file whose class is in `mask`, each under the key
made from its time stamp and the 1-based index of its line. -/
def fileRecords (parse : Parser) (content : List Nat) (mask : Nat) : Entries :=
  recordsFrom parse mask (linesFrom content 0) 0

/-- A file of one line, of class 0 (`A`) at time 1000000100. -/
def fileOne : List Nat := bytes "[1000000100] A one\n"

/-- The file `fileOne` after two lines were appended to it: one of class 0 (`A`) and
one of class 1 (`B`), both at time 1000000100. -/
def fileGrown : List Nat :=
  fileOne ++ bytes "[1000000100] A two\n[1000000100] B three\n"

/-- A file of four lines in the order in which they enter the map: class 0 (`A`) at
time 1000000010, class 1 (`B`) at 1000000005, class 1 at 1000000050 and class 0
at 1000000020. -/
def fileFour : List Nat :=
  bytes "[1000000010] A a\n[1000000005] B b\n[1000000050] B c\n[1000000020] A d\n"

/-- A file of five lines in the order in which they enter the map: class 0 (`A`) at
time 1000000030, class 1 (`B`) at 1000000010, class 1 at 1000000060, class 0 at
1000000040 and class 1 at 1000000070. -/
def fileFive : List Nat :=
  bytes ("[1000000030] A a\n[1000000010] B b\n[1000000060] B c\n[1000000040] A d\n" ++
    "[1000000070] B e\n")

/-- The sealed instance on `fileAB` after `load` for the classes 0 and 1. -/
def loadedAB : Logfile :=
  (load sampleParser (Logfile.new (some fileAB) false 0) (some fileAB) 0 0 3).st

/-- The sealed instance on `fileFour` after `load` for the classes 0 and 1. -/
def loadedFour : Logfile :=
  (load sampleParser (Logfile.new (some fileFour) false 0) (some fileFour) 0 0 3).st

/-- The sealed instance on `fileFive` after `load` for the classes 0 and 1. -/
def loadedFive : Logfile :=
  (load sampleParser (Logfile.new (some fileFive) false 0) (some fileFive) 0 0 3).st

/-! ## The header of a file -/

/-- A decimal digit. -/
def isDigit (c : Nat) : Bool := 48 ≤ c ∧ c ≤ 57

/-- Following the spec's words: the file holds at least 12 bytes and the first 12
are `[`, ten decimal digits, `]`. -/
def headerMatches (content : List Nat) : Bool :=
  12 ≤ content.length ∧ content.getD 0 0 = 91 ∧ ((content.drop 1).take 10).all isDigit ∧
    content.getD 11 0 = 93

/-- Following the spec's words: the decimal value of a sequence of digits. -/
def decimalValue (digits : List Nat) : Nat :=
  digits.foldl (fun acc c => acc * 10 + (c - 48)) 0

/-- The file `fileOne` after a line of class 0 (`A`) at the later time 1000000200
was appended to it. -/
def fileLater : List Nat := fileOne ++ bytes "[1000000200] A two\n"

/-! ## Facts about the machine arithmetic -/

theorem classBit_eq_testBit (c m : Nat) : classBit c m = m.testBit c := by
  unfold classBit
  rw [Nat.one_shiftLeft]
  by_cases h : m.testBit c = true
  · have hne : 2 ^ c &&& m ≠ 0 := by
      intro h0
      have := Nat.testBit_and (2 ^ c) m c
      rw [h0, Nat.zero_testBit, Nat.testBit_two_pow_self, h] at this
      simp at this
    simp [h, hne]
  · have h0 : 2 ^ c &&& m = 0 := by
      apply Nat.eq_of_testBit_eq
      intro i
      rw [Nat.testBit_and, Nat.zero_testBit, Nat.testBit_two_pow]
      by_cases hi : c = i
      · subst hi; simp [h]
      · simp [hi]
    simp [h, h0]

theorem testBit_bnot32 (x i : Nat) :
    (bnot32 x).testBit i = (decide (i < 32) && !x.testBit i) := by
  unfold bnot32
  have h1 : (4294967295 : Nat) = 2 ^ 32 - 1 := by norm_num
  have h2 : (4294967296 : Nat) = 2 ^ 32 := by norm_num
  rw [Nat.testBit_xor, h1, h2, Nat.testBit_two_pow_sub_one, Nat.testBit_mod_two_pow]
  by_cases hi : i < 32 <;> simp [hi]

theorem makeKey_eq (t : Int) (l : Nat) (h0 : 0 ≤ t) (h1 : t < 4294967296) :
    makeKey t l = t.toNat * 4294967296 + l % 4294967296 := by
  unfold makeKey
  have ht : t % 18446744073709551616 = t := Int.emod_eq_of_lt h0 (by omega)
  rw [ht, Nat.shiftLeft_eq]
  have hlt : t.toNat < 4294967296 := by omega
  have hm : t.toNat * 2 ^ 32 % 18446744073709551616 = 2 ^ 32 * t.toNat := by
    rw [Nat.mod_eq_of_lt (by norm_num; omega)]; ring
  rw [hm, ← Nat.mul_add_lt_is_or (by norm_num; omega)]
  norm_num; ring

/-! ## Facts about the ordered map -/

theorem lower_bound_eq_dropWhile (key : Nat) (es : Entries) :
    lower_bound key es = es.dropWhile (fun x => decide (x.1 < key)) := by
  induction es with
  | nil => rfl
  | cons x rest ih =>
    obtain ⟨k, v⟩ := x
    by_cases h : k < key <;> simp [lower_bound, List.dropWhile, h, ih]

theorem upper_bound_eq_takeWhile (key : Nat) (es : Entries) :
    upper_bound key es = es.takeWhile (fun x => decide (x.1 ≤ key)) := by
  induction es with
  | nil => rfl
  | cons x rest ih =>
    obtain ⟨k, v⟩ := x
    by_cases h : key < k
    · have h2 : ¬ k ≤ key := Nat.not_le.2 h
      simp [upper_bound, List.takeWhile_cons, h, h2]
    · have h2 : k ≤ key := Nat.le_of_not_lt h
      simp [upper_bound, List.takeWhile_cons, h, h2, ih]

/-- On a list ordered by `R`, a test that passes down along `R` holds on an initial
segment, which `takeWhile` and `filter` both return. -/
theorem takeWhile_eq_filter_of_pairwise {α : Type} (R : α → α → Prop) (p : α → Bool)
    (hp : ∀ a b, R a b → p b = true → p a = true) (l : List α) (hl : l.Pairwise R) :
    l.takeWhile p = l.filter p := by
  induction l with
  | nil => rfl
  | cons a rest ih =>
    rw [List.pairwise_cons] at hl
    by_cases h : p a = true
    · simp [List.takeWhile, List.filter, h, ih hl.2]
    · have hnone : rest.filter p = [] := by
        rw [List.filter_eq_nil_iff]
        intro b hb hpb
        exact h (hp a b (hl.1 b hb) hpb)
      simp [List.takeWhile, List.filter, h, hnone]

/-- On a list ordered by `R`, a test that passes up along `R` holds on a final
segment, which `dropWhile` of its negation and `filter` both return. -/
theorem dropWhile_eq_filter_of_pairwise {α : Type} (R : α → α → Prop) (p : α → Bool)
    (hp : ∀ a b, R a b → p a = true → p b = true) (l : List α) (hl : l.Pairwise R) :
    l.dropWhile (fun x => !p x) = l.filter p := by
  induction l with
  | nil => rfl
  | cons a rest ih =>
    rw [List.pairwise_cons] at hl
    by_cases h : p a = true
    · have hall : rest.filter p = rest := by
        rw [List.filter_eq_self]
        intro b hb
        exact hp a b (hl.1 b hb) h
      simp [List.dropWhile, List.filter, h, hall]
    · simp [List.dropWhile, List.filter, h, ih hl.2]

theorem mem_mapInsert (key : Nat) (e : LogEntry) (es : Entries) (h : mapFind key es = none)
    (x : Nat × LogEntry) : x ∈ mapInsert key e es ↔ x = (key, e) ∨ x ∈ es := by
  induction es with
  | nil => simp [mapInsert]
  | cons y rest ih =>
    obtain ⟨k, v⟩ := y
    have hk : ¬ k = key := by
      intro hk; simp [mapFind, hk] at h
    have hrest : mapFind key rest = none := by simpa [mapFind, hk] using h
    by_cases h1 : key < k
    · simp [mapInsert, h1]
    · have h2 : ¬ key = k := fun h2 => hk h2.symm
      simp only [mapInsert, h1, h2, if_false, List.mem_cons, ih hrest]
      tauto

theorem mapFind_eq_none_iff (key : Nat) (es : Entries) :
    mapFind key es = none ↔ ∀ x ∈ es, x.1 ≠ key := by
  induction es with
  | nil => simp [mapFind]
  | cons y rest ih =>
    obtain ⟨k, v⟩ := y
    by_cases hk : k = key
    · simp [mapFind, hk]
    · simp [mapFind, hk, ih]

theorem mapFind_some_mem (key : Nat) (es : Entries) (v : LogEntry)
    (h : mapFind key es = some v) : (key, v) ∈ es := by
  induction es with
  | nil => simp [mapFind] at h
  | cons y rest ih =>
    obtain ⟨k, w⟩ := y
    by_cases hk : k = key
    · simp [mapFind, hk] at h
      simp [hk, h]
    · simp [mapFind, hk] at h
      exact List.mem_cons_of_mem _ (ih h)

theorem mapInsert_sorted (key : Nat) (e : LogEntry) (es : Entries) (hs : KeysSorted es) :
    KeysSorted (mapInsert key e es) := by
  unfold KeysSorted at *
  induction es with
  | nil => simp [mapInsert]
  | cons y rest ih =>
    obtain ⟨k, v⟩ := y
    rw [List.pairwise_cons] at hs
    by_cases h1 : key < k
    · simp only [mapInsert, h1, if_true]
      refine List.Pairwise.cons ?_ (List.Pairwise.cons hs.1 hs.2)
      intro b hb
      rcases List.mem_cons.1 hb with rfl | hb
      · exact h1
      · exact lt_trans h1 (hs.1 b hb)
    · by_cases h2 : key = k
      · subst h2
        simp only [mapInsert, lt_irrefl, if_false, if_true]
        exact List.Pairwise.cons hs.1 hs.2
      · simp only [mapInsert, h1, h2, if_false]
        refine List.Pairwise.cons ?_ (ih hs.2)
        intro b hb
        by_cases hf : mapFind key rest = none
        · rcases (mem_mapInsert key e rest hf b).1 hb with rfl | hb
          · show k < key
            omega
          · exact hs.1 b hb
        · -- the key is present: the map is unchanged as a set
          have : ∀ b ∈ mapInsert key e rest, b = (key, e) ∨ b ∈ rest := by
            clear ih hs hb hf
            intro b hb
            induction rest with
            | nil => simpa [mapInsert] using hb
            | cons z r ihr =>
              obtain ⟨k2, v2⟩ := z
              by_cases g1 : key < k2
              · simp only [mapInsert, g1, if_true, List.mem_cons] at hb
                simpa using hb
              · by_cases g2 : key = k2
                · simp only [mapInsert, g1, g2, if_false, if_true] at hb
                  exact Or.inr (by simpa [g2] using hb)
                · simp only [mapInsert, g1, g2, if_false, List.mem_cons] at hb
                  rcases hb with hb | hb
                  · exact Or.inr (by simp [hb])
                  · rcases ihr hb with h | h
                    · exact Or.inl h
                    · exact Or.inr (List.mem_cons_of_mem _ h)
          rcases this b hb with rfl | hb
          · show k < key
            omega
          · exact hs.1 b hb

/-! ## Facts about loading -/

/-- Where the entries after `processLogLine` come from. -/
theorem processLogLine_mem (parse : Parser) (lineno mask : Nat) (line : List Nat)
    (es : Entries) (x : Nat × LogEntry)
    (hx : x ∈ (processLogLine parse lineno mask line es).1) :
    x ∈ es ∨ ∃ e, parse lineno line = some e ∧ classBit e.logclass mask = true ∧
      x = (makeKey e.time lineno, e) := by
  unfold processLogLine at hx
  cases hp : parse lineno line with
  | none => simp [hp] at hx; exact Or.inl hx
  | some e =>
    simp only [hp] at hx
    by_cases hc : classBit e.logclass mask = true
    · by_cases hf : mapFind (makeKey e.time lineno) es = none
      · simp only [hc, hf, if_true] at hx
        rcases (mem_mapInsert _ _ _ hf x).1 hx with h | h
        · exact Or.inr ⟨e, rfl, hc, h⟩
        · exact Or.inl h
      · simp only [hc, hf, if_true, if_false] at hx
        exact Or.inl hx
    · simp only [hc] at hx
      exact Or.inl hx

theorem processLogLine_old (parse : Parser) (lineno mask : Nat) (line : List Nat)
    (es : Entries) (x : Nat × LogEntry) (hx : x ∈ es) :
    x ∈ (processLogLine parse lineno mask line es).1 := by
  unfold processLogLine
  cases hp : parse lineno line with
  | none => simpa using hx
  | some e =>
    by_cases hc : classBit e.logclass mask = true
    · by_cases hf : mapFind (makeKey e.time lineno) es = none
      · simp only [hc, hf, if_true]
        exact (mem_mapInsert _ _ _ hf x).2 (Or.inr hx)
      · simpa [hc, hf] using hx
    · simpa [hc] using hx

theorem processLogLine_sorted (parse : Parser) (lineno mask : Nat) (line : List Nat)
    (es : Entries) (hs : KeysSorted es) :
    KeysSorted (processLogLine parse lineno mask line es).1 := by
  unfold processLogLine
  cases hp : parse lineno line with
  | none => simpa using hs
  | some e =>
    by_cases hc : classBit e.logclass mask = true
    · by_cases hf : mapFind (makeKey e.time lineno) es = none
      · simp only [hc, hf, if_true]
        exact mapInsert_sorted _ _ _ hs
      · simpa [hc, hf] using hs
    · simpa [hc] using hs

/-- A property of the map that every call of `processLogLine` keeps is kept by the
whole loop. -/
theorem loadLoop_invariant (parse : Parser) (mask : Nat) (P : Entries → Prop)
    (hstep : ∀ lineno line es, P es → P (processLogLine parse lineno mask line es).1)
    (lines : List (List Nat)) (lineno : Nat) (es : Entries) (n : Nat) (h : P es) :
    P (loadLoop parse mask lines lineno es n).1 := by
  induction lines generalizing lineno es n with
  | nil => simpa [loadLoop] using h
  | cons line rest ih =>
    simp only [loadLoop]
    split
    · exact ih _ _ _ (hstep _ _ _ h)
    · exact ih _ _ _ (hstep _ _ _ h)

theorem loadLoop_sorted (parse : Parser) (mask : Nat) (lines : List (List Nat))
    (lineno : Nat) (es : Entries) (n : Nat) (hs : KeysSorted es) :
    KeysSorted (loadLoop parse mask lines lineno es n).1 :=
  loadLoop_invariant parse mask KeysSorted
    (fun ln line es h => processLogLine_sorted parse ln mask line es h) lines lineno es n hs

/-- Every entry in the map after the loop was there before or was parsed from a
line of a requested class and stored under the key of its time stamp. -/
theorem loadLoop_mem (parse : Parser) (mask : Nat) (lines : List (List Nat))
    (lineno : Nat) (es : Entries) (n : Nat) (x : Nat × LogEntry)
    (hx : x ∈ (loadLoop parse mask lines lineno es n).1) :
    x ∈ es ∨ ∃ ln line e, parse ln line = some e ∧ classBit e.logclass mask = true ∧
      x = (makeKey e.time ln, e) := by
  have := loadLoop_invariant parse mask
    (fun es1 => ∀ y ∈ es1, y ∈ es ∨ ∃ ln line e, parse ln line = some e ∧
      classBit e.logclass mask = true ∧ y = (makeKey e.time ln, e))
    (by
      intro ln line es1 h y hy
      rcases processLogLine_mem parse ln mask line es1 y hy with h1 | ⟨e, h1, h2, h3⟩
      · exact h y h1
      · exact Or.inr ⟨ln, line, e, h1, h2, h3⟩)
    lines lineno es n (fun y hy => Or.inl hy)
  exact this x hx

theorem loadLoop_old (parse : Parser) (mask : Nat) (lines : List (List Nat))
    (lineno : Nat) (es : Entries) (n : Nat) (x : Nat × LogEntry) (hx : x ∈ es) :
    x ∈ (loadLoop parse mask lines lineno es n).1 :=
  loadLoop_invariant parse mask (fun es1 => x ∈ es1)
    (fun ln line es1 h => processLogLine_old parse ln mask line es1 x h) lines lineno es n hx

/-- The map after `load` is in key order when it was before. -/
theorem load_sorted (parse : Parser) (self : Logfile) (file : Option (List Nat))
    (since until_ : Int) (classes : Nat) (hs : KeysSorted self.entries) :
    KeysSorted (load parse self file since until_ classes).st.entries := by
  unfold load
  cases file with
  | none => simp only []; split_ifs <;> exact hs
  | some content =>
    simp only [loadFile]
    split_ifs <;>
      first
        | exact hs
        | exact loadLoop_sorted _ _ _ _ _ _ hs
        | exact loadLoop_sorted _ _ _ _ _ _ (loadLoop_sorted _ _ _ _ _ _ hs)

/-- Every entry in the map after `load` was there before or was parsed from a
line whose class was already read or is among the missing ones. -/
theorem load_mem (parse : Parser) (self : Logfile) (file : Option (List Nat))
    (since until_ : Int) (classes : Nat) (x : Nat × LogEntry)
    (hx : x ∈ (load parse self file since until_ classes).st.entries) :
    x ∈ self.entries ∨ ∃ ln line e, parse ln line = some e ∧
      (classBit e.logclass self.logclasses_read = true ∨
        classBit e.logclass (classes &&& bnot32 self.logclasses_read) = true) ∧
      x = (makeKey e.time ln, e) := by
  unfold load at hx
  cases file with
  | none =>
    simp only [] at hx
    split_ifs at hx <;> exact Or.inl hx
  | some content =>
    simp only [loadFile] at hx
    split_ifs at hx
    · rcases loadLoop_mem _ _ _ _ _ _ x hx with h | ⟨ln, line, e, h1, h2, h3⟩
      · rcases loadLoop_mem _ _ _ _ _ _ x h with h | ⟨ln, line, e, h1, h2, h3⟩
        · exact Or.inl h
        · exact Or.inr ⟨ln, line, e, h1, Or.inl h2, h3⟩
      · exact Or.inr ⟨ln, line, e, h1, Or.inr h2, h3⟩
    · rcases loadLoop_mem _ _ _ _ _ _ x hx with h | ⟨ln, line, e, h1, h2, h3⟩
      · exact Or.inl h
      · exact Or.inr ⟨ln, line, e, h1, Or.inr h2, h3⟩
    · rcases loadLoop_mem _ _ _ _ _ _ x hx with h | ⟨ln, line, e, h1, h2, h3⟩
      · exact Or.inl h
      · exact Or.inr ⟨ln, line, e, h1, Or.inl h2, h3⟩
    · exact Or.inl hx
    · exact Or.inl hx
    · rcases loadLoop_mem _ _ _ _ _ _ x hx with h | ⟨ln, line, e, h1, h2, h3⟩
      · exact Or.inl h
      · exact Or.inr ⟨ln, line, e, h1, Or.inr h2, h3⟩

theorem makeKey_made (t : Int) (l : Nat) (h0 : 0 ≤ t) (h1 : t < 4294967296) :
    makeKey t l = makeKey t (makeKey t l % 4294967296) := by
  rw [makeKey_eq t l h0 h1, makeKey_eq t _ h0 h1]
  omega

/-- The function `load` keeps the map well formed when the parser yields time stamps
of 32 bits. -/
theorem load_wf (parse : Parser) (self : Logfile) (file : Option (List Nat))
    (since until_ : Int) (classes : Nat) (hp : ParserInRange parse)
    (hwf : CacheWF self.entries) :
    CacheWF (load parse self file since until_ classes).st.entries := by
  refine ⟨load_sorted _ _ _ _ _ _ hwf.1, ?_⟩
  intro x hx
  rcases load_mem _ _ _ _ _ _ x hx with h | ⟨ln, line, e, h1, _, h3⟩
  · exact hwf.2 x h
  · subst h3
    have hr := hp ln line e h1
    exact ⟨hr, makeKey_made _ _ hr.1 hr.2⟩

/-! ## Facts about the scans -/

theorem takeWhile_congr_mem {α : Type} (p q : α → Bool) (l : List α)
    (h : ∀ x ∈ l, p x = q x) : l.takeWhile p = l.takeWhile q := by
  induction l with
  | nil => rfl
  | cons a rest ih =>
    have ha := h a (List.mem_cons_self _ _)
    have hr := ih (fun x hx => h x (List.mem_cons_of_mem _ hx))
    simp [List.takeWhile_cons, ha, hr]

theorem dropWhile_congr_mem {α : Type} (p q : α → Bool) (l : List α)
    (h : ∀ x ∈ l, p x = q x) : l.dropWhile p = l.dropWhile q := by
  induction l with
  | nil => rfl
  | cons a rest ih =>
    have ha := h a (List.mem_cons_self _ _)
    have hr := ih (fun x hx => h x (List.mem_cons_of_mem _ hx))
    simp [List.dropWhile_cons, ha, hr]

/-- The forward loop hands to the consumer what the spec's scan hands to it out of
the candidates that come before the first one at or after `until`. -/
theorem scanForward_feed {σ : Type} (sink : Sink σ) (until_ : Int) (l : Entries) (q : σ) :
    (scanForward sink until_ l q).visited =
        (feedSink sink (l.takeWhile (fun x => decide (x.2.time < until_))) q).1 ∧
    (scanForward sink until_ l q).stopped =
        (feedSink sink (l.takeWhile (fun x => decide (x.2.time < until_))) q).2 := by
  induction l generalizing q with
  | nil => simp [scanForward, feedSink]
  | cons x rest ih =>
    obtain ⟨k, e⟩ := x
    by_cases ht : e.time ≥ until_
    · have ht2 : ¬ e.time < until_ := not_lt.2 ht
      simp only [scanForward, feedSink, List.takeWhile_cons, ht, ht2, if_true, decide_False,
        Bool.false_eq_true, if_false, and_self]
    · have ht2 : e.time < until_ := not_le.1 ht
      by_cases ha : (sink q e).1 = false
      · simp only [scanForward, feedSink, List.takeWhile_cons, ht, ht2, ha, if_true, if_false,
          decide_True, and_self]
      · have := ih (sink q e).2
        simp only [scanForward, feedSink, List.takeWhile_cons, ht, ht2, ha, if_true, if_false,
          decide_True, this.1, this.2, and_self, Bool.true_eq_false]

theorem scanReverse_feed {σ : Type} (sink : Sink σ) (since : Int) (l : Entries) (q : σ) :
    (scanReverse sink since l q).visited =
        (feedSink sink (l.takeWhile (fun x => decide (since ≤ x.2.time))) q).1 ∧
    (scanReverse sink since l q).stopped =
        (feedSink sink (l.takeWhile (fun x => decide (since ≤ x.2.time))) q).2 := by
  induction l generalizing q with
  | nil => simp [scanReverse, feedSink]
  | cons x rest ih =>
    obtain ⟨k, e⟩ := x
    by_cases ht : e.time < since
    · have ht2 : ¬ since ≤ e.time := not_le.2 ht
      simp only [scanReverse, feedSink, List.takeWhile_cons, ht, ht2, if_true, decide_False,
        Bool.false_eq_true, if_false, and_self]
    · have ht2 : since ≤ e.time := not_lt.1 ht
      by_cases ha : (sink q e).1 = false
      · simp only [scanReverse, feedSink, List.takeWhile_cons, ht, ht2, ha, if_true, if_false,
          decide_True, and_self]
      · have := ih (sink q e).2
        simp only [scanReverse, feedSink, List.takeWhile_cons, ht, ht2, ha, if_true, if_false,
          decide_True, this.1, this.2, and_self, Bool.true_eq_false]

theorem feedSink_continue (l : Entries) (q : Unit) : feedSink continueSink l q = (l, false) := by
  induction l with
  | nil => rfl
  | cons x rest ih => simp [feedSink, continueSink] at ih ⊢; simp [ih]

theorem feedSink_isPrefix {σ : Type} (sink : Sink σ) (l : Entries) (q : σ) :
    (feedSink sink l q).1 <+: l := by
  induction l generalizing q with
  | nil => simp [feedSink]
  | cons x rest ih =>
    by_cases ha : (sink q x.2).1 = false
    · simp [feedSink, ha]
    · simp only [feedSink, ha, if_false]
      exact (List.prefix_cons_inj x).2 (ih _)

/-- The result of the forward loop: `true` exactly when the loop runs past the last
candidate. -/
theorem scanForward_result {σ : Type} (sink : Sink σ) (until_ : Int) (l : Entries) (q : σ) :
    ((scanForward sink until_ l q).result = true ↔
      (scanForward sink until_ l q).stopped = false ∧ (scanForward sink until_ l q).visited = l) ∧
    ((scanForward sink until_ l q).result = false ↔
      (scanForward sink until_ l q).stopped = true ∨
      ∃ x, l.get? (scanForward sink until_ l q).visited.length = some x ∧ x.2.time ≥ until_) := by
  induction l generalizing q with
  | nil => simp [scanForward]
  | cons x rest ih =>
    obtain ⟨k, e⟩ := x
    by_cases ht : e.time ≥ until_
    · simp only [scanForward, ht, if_true]
      simp [ht]
    · by_cases ha : (sink q e).1 = false
      · simp only [scanForward, ht, ha, if_true, if_false]
        simp
      · have := ih (sink q e).2
        simp only [scanForward, ht, ha, if_false, Bool.true_eq_false, List.length_cons,
          List.get?_cons_succ, List.cons.injEq, true_and]
        exact this

theorem time_le_of_key_lt (x y : Nat × LogEntry)
    (hx : (0 ≤ x.2.time ∧ x.2.time < 4294967296) ∧ x.1 = makeKey x.2.time (x.1 % 4294967296))
    (hy : (0 ≤ y.2.time ∧ y.2.time < 4294967296) ∧ y.1 = makeKey y.2.time (y.1 % 4294967296))
    (h : x.1 < y.1) : x.2.time ≤ y.2.time := by
  have h1 := hx.2
  have h2 := hy.2
  rw [makeKey_eq _ _ hx.1.1 hx.1.2] at h1
  rw [makeKey_eq _ _ hy.1.1 hy.1.2] at h2
  by_contra hc
  have : y.2.time.toNat + 1 ≤ x.2.time.toNat := by omega
  have h3 : (y.2.time.toNat + 1) * 4294967296 ≤ x.2.time.toNat * 4294967296 :=
    Nat.mul_le_mul_right _ this
  have h4 := Nat.mod_lt y.1 (show 0 < 4294967296 by norm_num)
  have h5 := Nat.mod_lt (y.1 % 4294967296) (show 0 < 4294967296 by norm_num)
  omega

theorem times_sorted (es : Entries) (hwf : CacheWF es) :
    es.Pairwise (fun a b => a.2.time ≤ b.2.time) := by
  refine List.Pairwise.imp_of_mem ?_ hwf.1
  intro a b ha hb hab
  exact time_le_of_key_lt a b (hwf.2 a ha) (hwf.2 b hb) hab

/-- In a well-formed map a key is below `makeKey since 0` exactly when the time
stamp of its entry is below `since`. -/
theorem key_lt_sincekey (x : Nat × LogEntry) (since : Int)
    (hx : (0 ≤ x.2.time ∧ x.2.time < 4294967296) ∧ x.1 = makeKey x.2.time (x.1 % 4294967296))
    (h0 : 0 ≤ since) (h1 : since < 4294967296) :
    x.1 < makeKey since 0 ↔ x.2.time < since := by
  have hk := hx.2
  rw [makeKey_eq _ _ hx.1.1 hx.1.2] at hk
  rw [makeKey_eq _ _ h0 h1]
  have h5 := Nat.mod_lt (x.1 % 4294967296) (show 0 < 4294967296 by norm_num)
  constructor
  · intro h
    by_contra hc
    have : since.toNat ≤ x.2.time.toNat := by omega
    have h3 : since.toNat * 4294967296 ≤ x.2.time.toNat * 4294967296 :=
      Nat.mul_le_mul_right _ this
    omega
  · intro h
    have : x.2.time.toNat + 1 ≤ since.toNat := by omega
    have h3 : (x.2.time.toNat + 1) * 4294967296 ≤ since.toNat * 4294967296 :=
      Nat.mul_le_mul_right _ this
    omega

/-! ## Range queries: claims C1 to C4 -/

theorem sampleParser_inRange : ParserInRange sampleParser := by
  intro n line e h
  unfold sampleParser at h
  simp only [] at h
  split_ifs at h with h1 h2
  simp only [Option.some.injEq] at h
  subst h
  exact ⟨h2.2.2.1, h2.2.2.2⟩

/-- The forward scan with a consumer that always continues hands over exactly the
entries of the map whose time stamp lies in the window. -/
theorem scanForward_window (es : Entries) (hwf : CacheWF es) (since until_ : Int)
    (h0 : 0 ≤ since) (h1 : since < 4294967296) :
    (scanForward continueSink until_ (lower_bound (makeKey since 0) es) ()).visited =
      es.filter (fun x => decide (since ≤ x.2.time ∧ x.2.time < until_)) := by
  have hts := times_sorted es hwf
  rw [(scanForward_feed continueSink until_ _ ()).1, feedSink_continue,
    lower_bound_eq_dropWhile]
  have e1 : es.dropWhile (fun x => decide (x.1 < makeKey since 0)) =
      es.dropWhile (fun x => !(decide (since ≤ x.2.time))) := by
    apply dropWhile_congr_mem
    intro x hx
    have := key_lt_sincekey x since (hwf.2 x hx) h0 h1
    by_cases hlt : x.2.time < since
    · simp [this.2 hlt, not_le.2 hlt]
    · have hk : ¬ x.1 < makeKey since 0 := fun hk => hlt (this.1 hk)
      simp [hk, not_lt.1 hlt]
  have e2 := dropWhile_eq_filter_of_pairwise (fun a b : Nat × LogEntry => a.2.time ≤ b.2.time)
    (fun x => decide (since ≤ x.2.time))
    (by intro a b hab ha; simp at ha ⊢; omega) es hts
  have hts2 : (es.filter (fun x => decide (since ≤ x.2.time))).Pairwise
      (fun a b => a.2.time ≤ b.2.time) := hts.sublist (List.filter_sublist _)
  have e3 := takeWhile_eq_filter_of_pairwise (fun a b : Nat × LogEntry => a.2.time ≤ b.2.time)
    (fun x => decide (x.2.time < until_))
    (by intro a b hab hb; simp at hb ⊢; omega) _ hts2
  simp only [e1, e2, e3, List.filter_filter]
  apply List.filter_congr
  intro x _
  by_cases ha : since ≤ x.2.time <;> by_cases hb : x.2.time < until_ <;> simp [ha, hb]

/-- C1, as stated, fails. First: a sealed instance that has loaded class 1 (`B`) of
the sample file is queried for class 0 (`A`) over a window that holds both lines;
the consumer is handed the entry of class 1 as well, which is not a requested
class. Second: with `since = -1` the start key wraps around and a fresh sealed
instance queried for both classes visits nothing, although both entries lie in
the window. Third: an entry with the negative time stamp -1 has the largest key
and is visited by a query over the window from 0 to 10. -/
theorem answerQuery_category_counterexample :
    ¬ (∀ x ∈ (answerQuery sampleParser continueSink
          (load sampleParser (Logfile.new (some fileAB) false 0) (some fileAB) 0 0 2).st
          (some fileAB) () 1000000000 1000000300 1).loaded.st.entries,
        (x ∈ (answerQuery sampleParser continueSink
          (load sampleParser (Logfile.new (some fileAB) false 0) (some fileAB) 0 0 2).st
          (some fileAB) () 1000000000 1000000300 1).scan.visited ↔
          (1000000000 ≤ x.2.time ∧ x.2.time < 1000000300 ∧ classBit x.2.logclass 1 = true))) ∧
    ¬ (∀ x ∈ (answerQuery sampleParser continueSink (Logfile.new (some fileAB) false 0)
          (some fileAB) () (-1) 2000000000 3).loaded.st.entries,
        (x ∈ (answerQuery sampleParser continueSink (Logfile.new (some fileAB) false 0)
          (some fileAB) () (-1) 2000000000 3).scan.visited ↔
          (-1 ≤ x.2.time ∧ x.2.time < 2000000000 ∧ classBit x.2.logclass 3 = true))) ∧
    ¬ (∀ x ∈ (answerQuery sampleParser continueSink
          { since := 0, watch := false, logclasses_read := 1, read_pos := 0,
            entries := [(makeKey (-1) 1, { lineno := 1, time := -1, logclass := 0, text := [] })] }
          none () 0 10 1).loaded.st.entries,
        (x ∈ (answerQuery sampleParser continueSink
          { since := 0, watch := false, logclasses_read := 1, read_pos := 0,
            entries := [(makeKey (-1) 1, { lineno := 1, time := -1, logclass := 0, text := [] })] }
          none () 0 10 1).scan.visited ↔
          (0 ≤ x.2.time ∧ x.2.time < 10 ∧ classBit x.2.logclass 1 = true))) := by
  decide

/-- C1, amended: with a consumer that always continues, after the internal load
`answerQuery` hands an entry of the map to the consumer if and only if
`since <= time < until`, whatever its class, and in strictly ascending key
order; this when `0 <= since < 2^32` and every time stamp `t` that is cached or
parsed has `0 <= t < 2^32`. -/
theorem answerQuery_visits_window (parse : Parser) (self : Logfile)
    (file : Option (List Nat)) (since until_ : Int) (classes : Nat)
    (hp : ParserInRange parse) (hwf : CacheWF self.entries)
    (h0 : 0 ≤ since) (h1 : since < 4294967296) :
    (answerQuery parse continueSink self file () since until_ classes).scan.visited =
      (answerQuery parse continueSink self file () since until_ classes).loaded.st.entries.filter
        (fun x => decide (since ≤ x.2.time ∧ x.2.time < until_)) ∧
    (∀ x, x ∈ (answerQuery parse continueSink self file () since until_ classes).scan.visited ↔
      x ∈ (answerQuery parse continueSink self file () since until_ classes).loaded.st.entries ∧
        since ≤ x.2.time ∧ x.2.time < until_) ∧
    (answerQuery parse continueSink self file () since until_ classes).scan.visited.Pairwise
      (fun a b => a.1 < b.1) := by
  have hwf2 := load_wf parse self file since until_ classes hp hwf
  have hv := scanForward_window _ hwf2 since until_ h0 h1
  refine ⟨hv, ?_, ?_⟩
  · intro x
    unfold answerQuery
    simp only [hv, List.mem_filter, decide_eq_true_eq]
  · unfold answerQuery
    simp only [hv]
    exact hwf2.1.sublist (List.filter_sublist _)

/-- C1, amended, on the sample file: a fresh sealed instance queried for both
classes over a window that holds the first line only. -/
theorem answerQuery_visits_window_witness :
    (answerQuery sampleParser continueSink (Logfile.new (some fileAB) false 0) (some fileAB) ()
        1000000000 1000000150 3).scan.visited =
      (answerQuery sampleParser continueSink (Logfile.new (some fileAB) false 0) (some fileAB) ()
        1000000000 1000000150 3).loaded.st.entries.filter
        (fun x => decide ((1000000000 : Int) ≤ x.2.time ∧ x.2.time < 1000000150)) ∧
    (∀ x, x ∈ (answerQuery sampleParser continueSink (Logfile.new (some fileAB) false 0)
        (some fileAB) () 1000000000 1000000150 3).scan.visited ↔
      x ∈ (answerQuery sampleParser continueSink (Logfile.new (some fileAB) false 0)
        (some fileAB) () 1000000000 1000000150 3).loaded.st.entries ∧
        1000000000 ≤ x.2.time ∧ x.2.time < 1000000150) ∧
    (answerQuery sampleParser continueSink (Logfile.new (some fileAB) false 0) (some fileAB) ()
        1000000000 1000000150 3).scan.visited.Pairwise (fun a b => a.1 < b.1) :=
  answerQuery_visits_window sampleParser (Logfile.new (some fileAB) false 0) (some fileAB)
    1000000000 1000000150 3 sampleParser_inRange (by decide) (by decide) (by decide)

/-- C2, as stated, fails: a fresh sealed instance on the sample file is queried for
both classes over a window that ends before the second line; the scan stops at
the entry whose time stamp is at or after `until` and returns `false`, although
the consumer never answered stop. -/
theorem answerQuery_result_counterexample :
    ¬ ((answerQuery sampleParser continueSink (Logfile.new (some fileAB) false 0)
          (some fileAB) () 1000000000 1000000150 3).scan.result = false ↔
       (answerQuery sampleParser continueSink (Logfile.new (some fileAB) false 0)
          (some fileAB) () 1000000000 1000000150 3).scan.stopped = true) := by
  decide

/-- C2, amended: `answerQuery` returns `true` exactly when the scan runs past the
last entry of the map (every entry from the start position on was handed to the
consumer and the consumer never answered stop), in particular on an empty map;
it returns `false` exactly when the consumer answered stop or the scan stopped
at an entry whose time stamp is at or after `until`. -/
theorem answerQuery_result {σ : Type} (parse : Parser) (sink : Sink σ) (self : Logfile)
    (file : Option (List Nat)) (q : σ) (since until_ : Int) (classes : Nat) :
    ((answerQuery parse sink self file q since until_ classes).scan.result = true ↔
      (answerQuery parse sink self file q since until_ classes).scan.stopped = false ∧
      (answerQuery parse sink self file q since until_ classes).scan.visited =
        lower_bound (makeKey since 0)
          (answerQuery parse sink self file q since until_ classes).loaded.st.entries) ∧
    ((answerQuery parse sink self file q since until_ classes).scan.result = false ↔
      (answerQuery parse sink self file q since until_ classes).scan.stopped = true ∨
      ∃ x, (lower_bound (makeKey since 0)
          (answerQuery parse sink self file q since until_ classes).loaded.st.entries).get?
            (answerQuery parse sink self file q since until_ classes).scan.visited.length = some x ∧
        x.2.time ≥ until_) ∧
    ((answerQuery parse sink self file q since until_ classes).loaded.st.entries = [] →
      (answerQuery parse sink self file q since until_ classes).scan.result = true) := by
  refine ⟨(scanForward_result sink until_ _ q).1, (scanForward_result sink until_ _ q).2, ?_⟩
  intro h
  unfold answerQuery at h ⊢
  simp only [] at h ⊢
  rw [h]
  rfl

/-- C3: whatever the consumer, `answerQuery` hands to it the entries that the same
call with an always-continuing consumer visits, one at a time and in the same
order, up to and including the first entry on which the consumer answers stop,
and none after it; when the consumer answers stop the call returns `false`. -/
theorem answerQuery_early_stop {σ : Type} (parse : Parser) (sink : Sink σ) (self : Logfile)
    (file : Option (List Nat)) (q : σ) (since until_ : Int) (classes : Nat) :
    (answerQuery parse sink self file q since until_ classes).scan.visited =
      (feedSink sink
        (answerQuery parse continueSink self file () since until_ classes).scan.visited q).1 ∧
    (answerQuery parse sink self file q since until_ classes).scan.stopped =
      (feedSink sink
        (answerQuery parse continueSink self file () since until_ classes).scan.visited q).2 ∧
    ((answerQuery parse sink self file q since until_ classes).scan.stopped = true →
      (answerQuery parse sink self file q since until_ classes).scan.result = false) ∧
    (answerQuery parse sink self file q since until_ classes).scan.visited <+:
      (answerQuery parse continueSink self file () since until_ classes).scan.visited := by
  have hc : (answerQuery parse continueSink self file () since until_ classes).scan.visited =
      (lower_bound (makeKey since 0) (load parse self file since until_ classes).st.entries).takeWhile
        (fun x => decide (x.2.time < until_)) := by
    unfold answerQuery
    simp only []
    rw [(scanForward_feed continueSink until_ _ ()).1, feedSink_continue]
  have hv := scanForward_feed sink until_
    (lower_bound (makeKey since 0) (load parse self file since until_ classes).st.entries) q
  refine ⟨?_, ?_, ?_, ?_⟩
  · rw [hc]; exact hv.1
  · rw [hc]; exact hv.2
  · intro hs
    have := (scanForward_result sink until_
      (lower_bound (makeKey since 0) (load parse self file since until_ classes).st.entries) q).2
    exact this.2 (Or.inl hs)
  · rw [hc]
    show (scanForward sink until_ _ q).visited <+: _
    rw [hv.1]
    exact feedSink_isPrefix sink _ q

/-- The reverse scan with a consumer that always continues, on a well-formed map:
it walks down from the last entry whose key is at most `untilkey`, and hands over
exactly the entries with such a key whose time stamp is at least `since`. -/
theorem scanReverse_window (es : Entries) (hwf : CacheWF es) (since : Int) (untilkey : Nat) :
    (scanReverse continueSink since (upper_bound untilkey es).reverse ()).visited =
        (es.filter (fun x => decide (x.1 ≤ untilkey))).reverse.takeWhile
          (fun x => decide (since ≤ x.2.time)) ∧
    (scanReverse continueSink since (upper_bound untilkey es).reverse ()).visited =
        (es.filter (fun x => decide (x.1 ≤ untilkey ∧ since ≤ x.2.time))).reverse := by
  have hts := times_sorted es hwf
  rw [(scanReverse_feed continueSink since _ ()).1, feedSink_continue,
    upper_bound_eq_takeWhile]
  have e1 := takeWhile_eq_filter_of_pairwise (fun a b : Nat × LogEntry => a.1 < b.1)
    (fun x => decide (x.1 ≤ untilkey))
    (by intro a b hab hb; simp at hb ⊢; omega) es hwf.1
  rw [e1]
  refine ⟨rfl, ?_⟩
  have hts2 : (es.filter (fun x => decide (x.1 ≤ untilkey))).reverse.Pairwise
      (fun a b => b.2.time ≤ a.2.time) := by
    rw [List.pairwise_reverse]
    exact hts.sublist (List.filter_sublist _)
  have e3 := takeWhile_eq_filter_of_pairwise (fun a b : Nat × LogEntry => b.2.time ≤ a.2.time)
    (fun x => decide (since ≤ x.2.time))
    (by intro a b hab hb; simp at hb ⊢; omega) _ hts2
  rw [e3, List.filter_reverse, List.filter_filter]
  show (List.filter _ es).reverse = _
  congr 1
  apply List.filter_congr
  intro x _
  by_cases ha : since ≤ x.2.time <;> by_cases hb : x.1 ≤ untilkey <;> simp [ha, hb]

/-- C4, as stated, fails. First: the map holds one entry, from line 1000000000 at
time 5; its key is at most `makeKey 5 4294967295` and its time stamp is at least
`since`, but the reverse scan over the window from 0 to 5 does not visit it.
Second: the map holds an entry at time 5 and one at time `-2^31`, whose key is
the larger one; the reverse scan over the window from 0 to `2^32 - 1` stops at
the latter and never visits the former. -/
theorem answerQueryReverse_bound_counterexample :
    ¬ (∀ x ∈ [(makeKey 5 1000000000,
            ({ lineno := 1000000000, time := 5, logclass := 0, text := [] } : LogEntry))],
        (x ∈ (answerQueryReverse sampleParser continueSink
          { since := 0, watch := false, logclasses_read := 1, read_pos := 0,
            entries := [(makeKey 5 1000000000,
              { lineno := 1000000000, time := 5, logclass := 0, text := [] })] }
          none () 0 5 1).scan.visited ↔
          x.1 ≤ makeKey 5 4294967295 ∧ (0 : Int) ≤ x.2.time)) ∧
    ¬ (∀ x ∈ [(makeKey 5 1, ({ lineno := 1, time := 5, logclass := 0, text := [] } : LogEntry)),
            (makeKey (-2147483648) 2,
              { lineno := 2, time := -2147483648, logclass := 0, text := [] })],
        (x ∈ (answerQueryReverse sampleParser continueSink
          { since := 0, watch := false, logclasses_read := 1, read_pos := 0,
            entries := [(makeKey 5 1, { lineno := 1, time := 5, logclass := 0, text := [] }),
              (makeKey (-2147483648) 2,
                { lineno := 2, time := -2147483648, logclass := 0, text := [] })] }
          none () 0 4294967295 1).scan.visited ↔
          x.1 ≤ makeKey 4294967295 4294967295 ∧ (0 : Int) ≤ x.2.time)) := by
  decide

/-- C4, amended: with a consumer that always continues, `answerQueryReverse` starts
at the last entry of the map whose key is at most `makeKey(until, 999999999)`
and visits, in strictly descending key order, exactly the entries whose key is
at most `makeKey(until, 999999999)` and whose time stamp is at least `since`;
this when every time stamp `t` that is cached or parsed has `0 <= t < 2^32`. -/
theorem answerQueryReverse_visits (parse : Parser) (self : Logfile)
    (file : Option (List Nat)) (since until_ : Int) (classes : Nat)
    (hp : ParserInRange parse) (hwf : CacheWF self.entries) :
    (answerQueryReverse parse continueSink self file () since until_ classes).scan.visited =
      ((answerQueryReverse parse continueSink self file () since until_
          classes).loaded.st.entries.filter
        (fun x => decide (x.1 ≤ makeKey until_ 999999999))).reverse.takeWhile
          (fun x => decide (since ≤ x.2.time)) ∧
    (∀ x, x ∈ (answerQueryReverse parse continueSink self file () since until_
          classes).scan.visited ↔
      x ∈ (answerQueryReverse parse continueSink self file () since until_
          classes).loaded.st.entries ∧
        x.1 ≤ makeKey until_ 999999999 ∧ since ≤ x.2.time) ∧
    (answerQueryReverse parse continueSink self file () since until_ classes).scan.visited.Pairwise
      (fun a b => b.1 < a.1) := by
  have hwf2 := load_wf parse self file since until_ classes hp hwf
  have hv := scanReverse_window _ hwf2 since (makeKey until_ 999999999)
  refine ⟨hv.1, ?_, ?_⟩
  · intro x
    unfold answerQueryReverse
    simp only [hv.2, List.mem_reverse, List.mem_filter, decide_eq_true_eq]
  · unfold answerQueryReverse
    simp only [hv.2]
    rw [List.pairwise_reverse]
    exact hwf2.1.sublist (List.filter_sublist _)

/-- C4, amended, on the sample file: a fresh sealed instance queried in reverse
for both classes over a window that holds the second line only. -/
theorem answerQueryReverse_visits_witness :
    (answerQueryReverse sampleParser continueSink (Logfile.new (some fileAB) false 0)
        (some fileAB) () 1000000150 1000000200 3).scan.visited =
      ((answerQueryReverse sampleParser continueSink (Logfile.new (some fileAB) false 0)
          (some fileAB) () 1000000150 1000000200 3).loaded.st.entries.filter
        (fun x => decide (x.1 ≤ makeKey 1000000200 999999999))).reverse.takeWhile
          (fun x => decide ((1000000150 : Int) ≤ x.2.time)) ∧
    (∀ x, x ∈ (answerQueryReverse sampleParser continueSink (Logfile.new (some fileAB) false 0)
          (some fileAB) () 1000000150 1000000200 3).scan.visited ↔
      x ∈ (answerQueryReverse sampleParser continueSink (Logfile.new (some fileAB) false 0)
          (some fileAB) () 1000000150 1000000200 3).loaded.st.entries ∧
        x.1 ≤ makeKey 1000000200 999999999 ∧ 1000000150 ≤ x.2.time) ∧
    (answerQueryReverse sampleParser continueSink (Logfile.new (some fileAB) false 0)
        (some fileAB) () 1000000150 1000000200 3).scan.visited.Pairwise
      (fun a b => b.1 < a.1) :=
  answerQueryReverse_visits sampleParser (Logfile.new (some fileAB) false 0) (some fileAB)
    1000000150 1000000200 3 sampleParser_inRange (by decide)

/-! ## Facts about eviction -/

/-- The loop of `freeMessages` reaches the end of the map exactly when none of the
entries it has still to visit has its class in the mask; the map and the counter
are then as they were. -/
theorem freeLoop_finished (mask : Nat) (todo es es2 : Entries) (n n2 : Nat) :
    freeLoop mask todo es n = FreeOutcome.finished es2 n2 ↔
      (∀ x ∈ todo, classBit x.2.logclass mask = false) ∧ es2 = es ∧ n2 = n := by
  induction todo with
  | nil =>
    simp only [freeLoop, FreeOutcome.finished.injEq, List.not_mem_nil, false_implies,
      implies_true, true_and]
    constructor
    · rintro ⟨h1, h2⟩; exact ⟨h1.symm, h2.symm⟩
    · rintro ⟨h1, h2⟩; exact ⟨h1.symm, h2.symm⟩
  | cons y todo ih =>
    obtain ⟨k, e⟩ := y
    by_cases hc : classBit e.logclass mask = true
    · simp only [freeLoop, hc, if_true, List.mem_cons, forall_eq_or_imp, Bool.true_eq_false,
        false_and, iff_false]
      intro h
      cases h
    · have hf : classBit e.logclass mask = false := by simpa using hc
      simp only [freeLoop, hf, Bool.false_eq_true, if_false, ih, List.mem_cons,
        forall_eq_or_imp, true_and]

/-- A call of `freeMessages` has a defined result exactly when no entry of the map
has its class in the mask: it then returns 0, leaves the map as it is and clears
the bits of the mask in `_logclasses_read`. A call that erases an entry has no
defined result. -/
theorem freeMessages_some (st st2 : Logfile) (mask n : Nat) :
    freeMessages st mask = some (st2, n) ↔
      (∀ x ∈ st.entries, classBit x.2.logclass mask = false) ∧
      st2 = { st with logclasses_read := st.logclasses_read &&& bnot32 mask } ∧ n = 0 := by
  unfold freeMessages
  cases h : freeLoop mask st.entries st.entries 0 with
  | finished es m =>
    obtain ⟨h1, h2, h3⟩ := (freeLoop_finished mask st.entries st.entries es 0 m).1 h
    subst h2 h3
    simp only [Option.some.injEq, Prod.mk.injEq]
    constructor
    · rintro ⟨h4, h5⟩; exact ⟨h1, h4.symm, h5.symm⟩
    · rintro ⟨_, h4, h5⟩; exact ⟨h4.symm, h5.symm⟩
  | undefined es m =>
    constructor
    · intro h1
      cases h1
    · rintro ⟨h1, _⟩
      have := (freeLoop_finished mask st.entries st.entries st.entries 0 0).2 ⟨h1, rfl, rfl⟩
      rw [h] at this
      cases this

/-! ## The invariant of the cache: claim C10 -/

theorem classBit_or (c a b : Nat) :
    classBit c (a ||| b) = (classBit c a || classBit c b) := by
  simp [classBit_eq_testBit]

theorem bnot32_lt (x : Nat) : bnot32 x < 4294967296 := by
  unfold bnot32
  have h := Nat.xor_lt_two_pow (x := 4294967295) (y := x % 4294967296) (n := 32)
    (by norm_num) (by have := Nat.mod_lt x (show 0 < 4294967296 by norm_num); norm_num; omega)
  norm_num at h
  exact h

theorem missing_lt (classes read : Nat) : classes &&& bnot32 read < 4294967296 :=
  lt_of_le_of_lt Nat.and_le_right (bnot32_lt read)

theorem or_missing_lt (classes read : Nat) (h : read < 4294967296) :
    read ||| (classes &&& bnot32 read) < 4294967296 := by
  have := Nat.or_lt_two_pow (x := read) (y := classes &&& bnot32 read) (n := 32)
    (by norm_num; exact h) (by have := missing_lt classes read; norm_num; exact this)
  norm_num at this
  exact this

/-- What the invariant needs to be kept: a map in key order and a class mask of 32
bits, as the types `std::map` and `unsigned` provide, and the invariant itself. -/
theorem load_keeps (parse : Parser) (self : Logfile) (file : Option (List Nat))
    (since until_ : Int) (classes : Nat)
    (h : KeysSorted self.entries ∧ self.logclasses_read < 4294967296 ∧ ReadCovers self) :
    KeysSorted (load parse self file since until_ classes).st.entries ∧
    (load parse self file since until_ classes).st.logclasses_read < 4294967296 ∧
    ReadCovers (load parse self file since until_ classes).st := by
  refine ⟨load_sorted _ _ _ _ _ _ h.1, ?_, ?_⟩
  · unfold load
    cases file with
    | none => simp only []; split_ifs <;> exact h.2.1
    | some content =>
      simp only []
      split_ifs <;> first | exact h.2.1 | exact or_missing_lt _ _ h.2.1
  · have hold : ∀ m, ∀ x ∈ self.entries,
        classBit x.2.logclass (self.logclasses_read ||| m) = true := by
      intro m x hx
      rw [classBit_or, h.2.2 x hx]; rfl
    unfold ReadCovers load
    cases file with
    | none => simp only []; split_ifs <;> exact h.2.2
    | some content =>
      simp only [loadFile]
      split_ifs
      · intro x hx
        rcases loadLoop_mem _ _ _ _ _ _ x hx with h1 | ⟨ln, line, e, h1, h2, h3⟩
        · rcases loadLoop_mem _ _ _ _ _ _ x h1 with h1 | ⟨ln, line, e, h1, h2, h3⟩
          · exact hold _ x h1
          · subst h3; simp only [classBit_or, h2, Bool.true_or]
        · subst h3; simp only [classBit_or, h2, Bool.or_true]
      · intro x hx
        rcases loadLoop_mem _ _ _ _ _ _ x hx with h1 | ⟨ln, line, e, h1, h2, h3⟩
        · exact hold _ x h1
        · subst h3; simp only [classBit_or, h2, Bool.or_true]
      · intro x hx
        rcases loadLoop_mem _ _ _ _ _ _ x hx with h1 | ⟨ln, line, e, h1, h2, h3⟩
        · exact h.2.2 x h1
        · subst h3; exact h2
      · exact h.2.2
      · exact h.2.2
      · intro x hx
        rcases loadLoop_mem _ _ _ _ _ _ x hx with h1 | ⟨ln, line, e, h1, h2, h3⟩
        · exact hold _ x h1
        · subst h3; simp only [classBit_or, h2, Bool.or_true]

theorem freeMessages_keeps (self st2 : Logfile) (classes n : Nat)
    (hfm : freeMessages self classes = some (st2, n))
    (h : KeysSorted self.entries ∧ self.logclasses_read < 4294967296 ∧ ReadCovers self) :
    KeysSorted st2.entries ∧ st2.logclasses_read < 4294967296 ∧ ReadCovers st2 := by
  obtain ⟨hno, hst, _⟩ := (freeMessages_some self st2 classes n).1 hfm
  subst hst
  refine ⟨h.1, ?_, ?_⟩
  · exact lt_of_le_of_lt Nat.and_le_left h.2.1
  · intro x hx
    have h1 := h.2.2 x hx
    have h2 : classBit x.2.logclass classes = false := hno x hx
    rw [classBit_eq_testBit] at h1 h2
    show classBit x.2.logclass (self.logclasses_read &&& bnot32 classes) = true
    rw [classBit_eq_testBit, Nat.testBit_and, testBit_bnot32, h1, h2]
    have hlt : x.2.logclass < 32 := by
      by_contra hge
      have hpow : self.logclasses_read < 2 ^ x.2.logclass :=
        lt_of_lt_of_le h.2.1 (by
          have : (4294967296 : Nat) = 2 ^ 32 := by norm_num
          rw [this]
          exact Nat.pow_le_pow_right (by norm_num) (not_lt.1 hge))
      rw [Nat.testBit_lt_two_pow hpow] at h1
      exact Bool.false_ne_true h1
    simp [hlt]

theorem new_keeps (file : Option (List Nat)) (watch : Bool) (pos0 : Nat) :
    KeysSorted (Logfile.new file watch pos0).entries ∧
    (Logfile.new file watch pos0).logclasses_read < 4294967296 ∧
    ReadCovers (Logfile.new file watch pos0) := by
  unfold Logfile.new ReadCovers KeysSorted
  cases file with
  | none => simp
  | some content => simp only []; split_ifs <;> simp

/-- In every state reached by calls that have a defined result the keys are in
order, `_logclasses_read` is an `unsigned` and the class bit of every cached
entry is set in it. A call of `freeMessages` enters only where it erases
nothing, the one case in which it has a defined result (`freeMessages_some`). -/
theorem reachable_keeps (parse : Parser) (st : Logfile) (h : Reachable parse st) :
    KeysSorted st.entries ∧ st.logclasses_read < 4294967296 ∧ ReadCovers st := by
  induction h with
  | fresh file watch pos0 => exact new_keeps file watch pos0
  | load st file since until_ classes _ ih => exact load_keeps parse st file since until_ classes ih
  | freeMessages st st2 classes freed _ hfm ih =>
    exact freeMessages_keeps st st2 classes freed hfm ih
  | flush st _ _ =>
    refine ⟨List.Pairwise.nil, by simp [flush], ?_⟩
    intro x hx
    simp [flush] at hx
  | answerQuery sink st file q since until_ classes _ ih =>
    exact load_keeps parse st file since until_ classes ih
  | answerQueryReverse sink st file q since until_ classes _ ih =>
    exact load_keeps parse st file since until_ classes ih

/-- Every reachable state has a well-formed map when the parser yields time stamps
of 32 bits: keys in order, each made from the time stamp of its entry. -/
theorem reachable_wf (parse : Parser) (hp : ParserInRange parse) (st : Logfile)
    (h : Reachable parse st) : CacheWF st.entries := by
  induction h with
  | fresh file watch pos0 =>
    have : (Logfile.new file watch pos0).entries = [] := by
      unfold Logfile.new
      cases file with
      | none => rfl
      | some content => simp only []; split_ifs <;> rfl
    rw [this]
    exact ⟨List.Pairwise.nil, fun x hx => absurd hx (List.not_mem_nil x)⟩
  | load st file since until_ classes _ ih => exact load_wf parse st file since until_ classes hp ih
  | freeMessages st st2 classes freed _ hfm ih =>
    obtain ⟨_, hst, _⟩ := (freeMessages_some st st2 classes freed).1 hfm
    subst hst
    exact ih
  | flush st _ _ => exact ⟨List.Pairwise.nil, fun x hx => absurd hx (List.not_mem_nil x)⟩
  | answerQuery sink st file q since until_ classes _ ih =>
    exact load_wf parse st file since until_ classes hp ih
  | answerQueryReverse sink st file q since until_ classes _ ih =>
    exact load_wf parse st file since until_ classes hp ih

/-- C10 fails on the code, in `freeMessages`: a sealed instance that has loaded the
classes 0 and 1 of `fileFive` is in a reachable state in which the class bit of
every cached entry is set in `_logclasses_read`; its map holds two entries of
class 0, those of the lines 1 and 4. The loop of `freeMessages(1)` erases the
entry of line 1 and then increments the erased iterator: it has no defined
continuation, at a moment at which one entry is counted and the map still holds
the entry of line 4, of class 0; the call has no defined result. -/
theorem freeMessages_invariant_undefined :
    Reachable sampleParser loadedFive ∧
    ReadCovers loadedFive ∧
    loadedFive.entries.map (fun x => (x.1, x.2.logclass)) =
      [(makeKey 1000000010 2, 1), (makeKey 1000000030 1, 0), (makeKey 1000000040 4, 0),
        (makeKey 1000000060 3, 1), (makeKey 1000000070 5, 1)] ∧
    freeLoop 1 loadedFive.entries loadedFive.entries 0 =
      FreeOutcome.undefined (mapErase (makeKey 1000000030 1) loadedFive.entries) 1 ∧
    (mapErase (makeKey 1000000030 1) loadedFive.entries).map (fun x => (x.1, x.2.logclass)) =
      [(makeKey 1000000010 2, 1), (makeKey 1000000040 4, 0), (makeKey 1000000060 3, 1),
        (makeKey 1000000070 5, 1)] ∧
    freeMessages loadedFive 1 = none :=
  ⟨Reachable.load _ _ _ _ _ (Reachable.fresh _ _ _), by decide, by decide, by decide, by decide,
    by decide⟩

/-! ## Loading a sealed file: claims C6 and C7 -/

theorem makeKey_mod (t : Int) (l : Nat) : makeKey t l % 4294967296 = l % 4294967296 := by
  unfold makeKey
  rw [Nat.shiftLeft_eq]
  have h1 : (t % 18446744073709551616).toNat * 2 ^ 32 % 18446744073709551616 =
      2 ^ 32 * ((t % 18446744073709551616).toNat % 4294967296) := by
    have : (18446744073709551616 : Nat) = 4294967296 * 2 ^ 32 := by norm_num
    rw [this, Nat.mul_mod_mul_right]
    ring
  have h2 : l % 4294967296 < 2 ^ 32 := by
    have := Nat.mod_lt l (show 0 < 4294967296 by norm_num)
    norm_num; exact this
  rw [h1, ← Nat.mul_add_lt_is_or h2]
  have : (2 : Nat) ^ 32 = 4294967296 := by norm_num
  rw [this]
  omega

theorem mem_recordsFrom (parse : Parser) (mask : Nat) (lines : List (List Nat)) (n : Nat)
    (x : Nat × LogEntry) :
    x ∈ recordsFrom parse mask lines n ↔
      ∃ i line e, lines.get? i = some line ∧ parse (n + i + 1) line = some e ∧
        classBit e.logclass mask = true ∧ x = (makeKey e.time (n + i + 1), e) := by
  induction lines generalizing n with
  | nil => simp [recordsFrom]
  | cons l rest ih =>
    have hrest : x ∈ recordsFrom parse mask rest (n + 1) ↔
        ∃ i line e, (l :: rest).get? (i + 1) = some line ∧
          parse (n + (i + 1) + 1) line = some e ∧
          classBit e.logclass mask = true ∧ x = (makeKey e.time (n + (i + 1) + 1), e) := by
      rw [ih (n + 1)]
      constructor
      · rintro ⟨i, line, e, h1, h2, h3, h4⟩
        refine ⟨i, line, e, by simpa using h1, ?_, h3, ?_⟩
        · rw [show n + (i + 1) + 1 = n + 1 + i + 1 by omega]; exact h2
        · rw [show n + (i + 1) + 1 = n + 1 + i + 1 by omega]; exact h4
      · rintro ⟨i, line, e, h1, h2, h3, h4⟩
        refine ⟨i, line, e, by simpa using h1, ?_, h3, ?_⟩
        · rw [show n + 1 + i + 1 = n + (i + 1) + 1 by omega]; exact h2
        · rw [show n + 1 + i + 1 = n + (i + 1) + 1 by omega]; exact h4
    have hsplit : (∃ i line e, (l :: rest).get? i = some line ∧ parse (n + i + 1) line = some e ∧
        classBit e.logclass mask = true ∧ x = (makeKey e.time (n + i + 1), e)) ↔
        (∃ e, parse (n + 1) l = some e ∧ classBit e.logclass mask = true ∧
          x = (makeKey e.time (n + 1), e)) ∨
        (∃ i line e, (l :: rest).get? (i + 1) = some line ∧
          parse (n + (i + 1) + 1) line = some e ∧
          classBit e.logclass mask = true ∧ x = (makeKey e.time (n + (i + 1) + 1), e)) := by
      constructor
      · rintro ⟨i, line, e, h1, h2, h3, h4⟩
        cases i with
        | zero =>
          simp only [List.get?_cons_zero, Option.some.injEq] at h1
          subst h1
          exact Or.inl ⟨e, h2, h3, h4⟩
        | succ j => exact Or.inr ⟨j, line, e, h1, h2, h3, h4⟩
      · rintro (⟨e, h2, h3, h4⟩ | ⟨j, line, e, h1, h2, h3, h4⟩)
        · exact ⟨0, l, e, rfl, h2, h3, h4⟩
        · exact ⟨j + 1, line, e, h1, h2, h3, h4⟩
    rw [hsplit, ← hrest]
    cases hp : parse (n + 1) l with
    | none =>
      have hr : recordsFrom parse mask (l :: rest) n = recordsFrom parse mask rest (n + 1) := by
        simp [recordsFrom, hp]
      rw [hr]
      simp
    | some e =>
      by_cases hc : classBit e.logclass mask = true
      · have hr : recordsFrom parse mask (l :: rest) n =
            (makeKey e.time (n + 1), e) :: recordsFrom parse mask rest (n + 1) := by
          simp [recordsFrom, hp, hc]
        rw [hr]
        simp only [List.mem_cons, Option.some.injEq]
        constructor
        · rintro (h | h)
          · exact Or.inl ⟨e, rfl, hc, h⟩
          · exact Or.inr h
        · rintro (⟨e2, h2, _, h4⟩ | h)
          · subst h2; exact Or.inl h4
          · exact Or.inr h
      · have hr : recordsFrom parse mask (l :: rest) n = recordsFrom parse mask rest (n + 1) := by
          simp [recordsFrom, hp, hc]
        rw [hr]
        simp only [Option.some.injEq]
        constructor
        · intro h; exact Or.inr h
        · rintro (⟨e2, h2, h3, _⟩ | h)
          · subst h2; exact absurd h3 hc
          · exact h

/-- The loop of `load(FILE *)` started with the counter at `n`, when the counter does
not wrap and a key that is already in the map holds the very record the loop
would store: the map gains exactly the records of the lines. -/
theorem loadLoop_mem_iff (parse : Parser) (mask : Nat) (lines : List (List Nat)) (n : Nat)
    (es : Entries) (cnt : Nat) (hlen : n + lines.length < 4294967296)
    (hcoll : ∀ y ∈ es, ∀ x ∈ recordsFrom parse mask lines n, y.1 = x.1 → y = x)
    (x : Nat × LogEntry) :
    x ∈ (loadLoop parse mask lines n es cnt).1 ↔ x ∈ es ∨ x ∈ recordsFrom parse mask lines n := by
  induction lines generalizing n es cnt with
  | nil => simp [loadLoop, recordsFrom]
  | cons l rest ih =>
    have hn : (n + 1) % 4294967296 = n + 1 := Nat.mod_eq_of_lt (by simp at hlen; omega)
    have hlen2 : n + 1 + rest.length < 4294967296 := by simp at hlen; omega
    -- the records of the remaining lines have keys of later lines
    have hlater : ∀ z ∈ recordsFrom parse mask rest (n + 1), ∀ t : Int,
        z.1 ≠ makeKey t (n + 1) := by
      intro z hz t heq
      rcases (mem_recordsFrom parse mask rest (n + 1) z).1 hz with ⟨i, line, e, h1, _, _, h4⟩
      have hi : i < rest.length := by
        rcases List.get?_eq_some.1 h1 with ⟨hi, _⟩
        exact hi
      have := congrArg (fun k => k % 4294967296) heq
      simp only [h4, makeKey_mod] at this
      rw [Nat.mod_eq_of_lt (by omega), Nat.mod_eq_of_lt (by omega)] at this
      omega
    simp only [loadLoop, hn]
    have key : ∀ c : Nat, x ∈ (loadLoop parse mask rest (n + 1)
        (processLogLine parse (n + 1) mask l es).1 c).1 ↔
        x ∈ es ∨ x ∈ recordsFrom parse mask (l :: rest) n := by
      intro c
      unfold processLogLine
      cases hp : parse (n + 1) l with
      | none =>
        have hr : recordsFrom parse mask (l :: rest) n = recordsFrom parse mask rest (n + 1) := by
          simp [recordsFrom, hp]
        rw [hr] at hcoll ⊢
        exact ih (n + 1) es c hlen2 hcoll
      | some e =>
        by_cases hc : classBit e.logclass mask = true
        · have hr : recordsFrom parse mask (l :: rest) n =
              (makeKey e.time (n + 1), e) :: recordsFrom parse mask rest (n + 1) := by
            simp [recordsFrom, hp, hc]
          rw [hr] at hcoll ⊢
          by_cases hf : mapFind (makeKey e.time (n + 1)) es = none
          · simp only [hc, hf, if_true]
            rw [ih (n + 1) _ c hlen2, mem_mapInsert _ _ _ hf, List.mem_cons]
            · tauto
            · intro y hy z hz hyz
              rcases (mem_mapInsert _ _ _ hf y).1 hy with rfl | hy
              · exact absurd hyz.symm (hlater z hz e.time)
              · exact hcoll y hy z (List.mem_cons_of_mem _ hz) hyz
          · simp only [hc, hf, if_true, if_false]
            rw [ih (n + 1) es c hlen2 (fun y hy z hz hyz =>
              hcoll y hy z (List.mem_cons_of_mem _ hz) hyz), List.mem_cons]
            obtain ⟨v, hv⟩ := Option.ne_none_iff_exists'.1 hf
            have hmem := mapFind_some_mem _ _ _ hv
            have := hcoll _ hmem _ (List.mem_cons_self _ _) rfl
            constructor
            · rintro (h | h)
              · exact Or.inl h
              · exact Or.inr (Or.inr h)
            · rintro (h | h | h)
              · exact Or.inl h
              · subst h; rw [← this]; exact Or.inl hmem
              · exact Or.inr h
        · have hr : recordsFrom parse mask (l :: rest) n = recordsFrom parse mask rest (n + 1) := by
            simp [recordsFrom, hp, hc]
          rw [hr] at hcoll ⊢
          simp only [hc, Bool.false_eq_true, if_false]
          exact ih (n + 1) es c hlen2 hcoll
    split
    · exact key _
    · exact key _

theorem or_missing (classes read : Nat) (h : classes < 4294967296) :
    read ||| (classes &&& bnot32 read) = read ||| classes := by
  apply Nat.eq_of_testBit_eq
  intro i
  rw [Nat.testBit_or, Nat.testBit_or, Nat.testBit_and, testBit_bnot32]
  by_cases hi : i < 32
  · cases read.testBit i <;> cases classes.testBit i <;> simp [hi]
  · have hpow : classes < 2 ^ i :=
      lt_of_lt_of_le h (by
        have : (4294967296 : Nat) = 2 ^ 32 := by norm_num
        rw [this]
        exact Nat.pow_le_pow_right (by norm_num) (not_lt.1 hi))
    rw [Nat.testBit_lt_two_pow hpow]
    simp

theorem missing_after (classes read : Nat) :
    classes &&& bnot32 (read ||| (classes &&& bnot32 read)) = 0 := by
  apply Nat.eq_of_testBit_eq
  intro i
  rw [Nat.testBit_and, testBit_bnot32, Nat.testBit_or, Nat.testBit_and, testBit_bnot32,
    Nat.zero_testBit]
  by_cases hi : i < 32 <;> cases read.testBit i <;> cases classes.testBit i <;> simp [hi]

/-- What `load` does on a sealed file that can be opened and has missing classes. -/
theorem load_sealed_scan (parse : Parser) (self : Logfile) (content : List Nat)
    (since until_ : Int) (classes : Nat) (hw : self.watch = false)
    (hm : classes &&& bnot32 self.logclasses_read ≠ 0) :
    load parse self (some content) since until_ classes =
      ⟨{ self with
          entries := (loadFile parse content 0 (classes &&& bnot32 self.logclasses_read)
            self.entries).1,
          logclasses_read := self.logclasses_read ||| (classes &&& bnot32 self.logclasses_read) },
        (linesFrom content 0).length,
        (loadFile parse content 0 (classes &&& bnot32 self.logclasses_read) self.entries).2⟩ := by
  unfold load
  simp only [hw, Bool.false_eq_true, if_false, hm]

/-- What `load` does on a sealed file of which no requested class is missing. -/
theorem load_sealed_skip (parse : Parser) (self : Logfile) (file : Option (List Nat))
    (since until_ : Int) (classes : Nat) (hw : self.watch = false)
    (hm : classes &&& bnot32 self.logclasses_read = 0) :
    load parse self file since until_ classes = ⟨self, 0, 0⟩ := by
  unfold load
  simp only [hw, Bool.false_eq_true, if_false, hm, if_true]

/-- What `load` does when the file cannot be opened. -/
theorem load_none (parse : Parser) (self : Logfile) (since until_ : Int) (classes : Nat) :
    load parse self none since until_ classes = ⟨self, 0, 0⟩ := by
  unfold load
  simp only []
  split_ifs <;> rfl

/-- What `load` does on a sealed file that can be opened, from a state whose map
holds exactly the records of the file with a class in `_logclasses_read`: the
map then holds exactly the records with a class that was read or is requested,
in key order, and `_logclasses_read` is the union. -/
theorem load_sealed_records (parse : Parser) (self : Logfile) (content : List Nat)
    (since until_ : Int) (classes : Nat)
    (hw : self.watch = false)
    (hlen : (linesFrom content 0).length < 4294967296)
    (hcl : classes < 4294967296)
    (hs : KeysSorted self.entries)
    (hpre : ∀ x, x ∈ self.entries ↔ x ∈ fileRecords parse content self.logclasses_read) :
    (∀ x, x ∈ (load parse self (some content) since until_ classes).st.entries ↔
      x ∈ fileRecords parse content (self.logclasses_read ||| classes)) ∧
    KeysSorted (load parse self (some content) since until_ classes).st.entries ∧
    (load parse self (some content) since until_ classes).st.logclasses_read =
      self.logclasses_read ||| classes := by
  have hunion : ∀ x, x ∈ fileRecords parse content (self.logclasses_read ||| classes) ↔
      x ∈ fileRecords parse content self.logclasses_read ∨
      x ∈ fileRecords parse content (classes &&& bnot32 self.logclasses_read) := by
    intro x
    unfold fileRecords
    rw [← or_missing classes self.logclasses_read hcl]
    simp only [mem_recordsFrom, classBit_or, Bool.or_eq_true]
    constructor
    · rintro ⟨i, line, e, h1, h2, h3 | h3, h4⟩
      · exact Or.inl ⟨i, line, e, h1, h2, h3, h4⟩
      · exact Or.inr ⟨i, line, e, h1, h2, h3, h4⟩
    · rintro (⟨i, line, e, h1, h2, h3, h4⟩ | ⟨i, line, e, h1, h2, h3, h4⟩)
      · exact ⟨i, line, e, h1, h2, Or.inl h3, h4⟩
      · exact ⟨i, line, e, h1, h2, Or.inr h3, h4⟩
  refine ⟨?_, load_sorted _ _ _ _ _ _ hs, ?_⟩
  · intro x
    rw [hunion]
    by_cases hm : classes &&& bnot32 self.logclasses_read = 0
    · rw [load_sealed_skip parse self _ since until_ classes hw hm, hm]
      have hnone : x ∉ fileRecords parse content 0 := by
        unfold fileRecords
        rw [mem_recordsFrom]
        rintro ⟨i, line, e, _, _, h3, _⟩
        simp [classBit] at h3
      simp only [hpre x, hnone, or_false]
    · rw [load_sealed_scan parse self content since until_ classes hw hm]
      simp only [loadFile]
      rw [loadLoop_mem_iff parse _ _ 0 _ 0 (by simpa using hlen), hpre x]
      · rfl
      · intro y hy z hz hyz
        rw [hpre y] at hy
        unfold fileRecords at hy
        rcases (mem_recordsFrom _ _ _ _ y).1 hy with ⟨i, l1, e1, a1, a2, _, a4⟩
        rcases (mem_recordsFrom _ _ _ _ z).1 hz with ⟨j, l2, e2, b1, b2, _, b4⟩
        have hi : i < (linesFrom content 0).length := (List.get?_eq_some.1 a1).1
        have hj : j < (linesFrom content 0).length := (List.get?_eq_some.1 b1).1
        have hk := congrArg (fun k => k % 4294967296) hyz
        simp only [a4, b4, makeKey_mod] at hk
        rw [Nat.mod_eq_of_lt (by omega), Nat.mod_eq_of_lt (by omega)] at hk
        have hij : i = j := by omega
        subst hij
        rw [a1] at b1
        simp only [Option.some.injEq] at b1
        subst b1
        rw [a2] at b2
        simp only [Option.some.injEq] at b2
        subst b2
        rw [a4, b4]
  · by_cases hm : classes &&& bnot32 self.logclasses_read = 0
    · rw [load_sealed_skip parse self _ since until_ classes hw hm]
      rw [← or_missing classes self.logclasses_read hcl, hm]
      simp
    · rw [load_sealed_scan parse self content since until_ classes hw hm]
      exact or_missing classes self.logclasses_read hcl

/-- C6: on a sealed file that can be opened, from a state whose map holds exactly
the parseable records of the file with a class in `_logclasses_read`, each under
the key of its time stamp and 1-based line index, `load` leaves the map holding
exactly the parseable records of the file with a class that was read or is
requested, under such keys and in key order, and leaves `_logclasses_read` as the
union of the old value and the requested classes. -/
theorem load_sealed_exact (parse : Parser) (self : Logfile) (content : List Nat)
    (since until_ : Int) (classes : Nat)
    (hw : self.watch = false)
    (hlen : (linesFrom content 0).length < 4294967296)
    (hcl : classes < 4294967296)
    (hs : KeysSorted self.entries)
    (hpre : ∀ x, x ∈ self.entries ↔ x ∈ fileRecords parse content self.logclasses_read) :
    (∀ x, x ∈ (load parse self (some content) since until_ classes).st.entries ↔
      x ∈ fileRecords parse content (self.logclasses_read ||| classes)) ∧
    KeysSorted (load parse self (some content) since until_ classes).st.entries ∧
    (load parse self (some content) since until_ classes).st.logclasses_read =
      self.logclasses_read ||| classes :=
  load_sealed_records parse self content since until_ classes hw hlen hcl hs hpre

/-- C6 on the sample file: a sealed instance that has read class 0 loads class 1. -/
theorem load_sealed_exact_witness :
    (∀ x, x ∈ (load sampleParser (load sampleParser (Logfile.new (some fileAB) false 0)
          (some fileAB) 0 0 1).st (some fileAB) 0 0 2).st.entries ↔
      x ∈ fileRecords sampleParser fileAB ((load sampleParser (Logfile.new (some fileAB) false 0)
          (some fileAB) 0 0 1).st.logclasses_read ||| 2)) ∧
    KeysSorted (load sampleParser (load sampleParser (Logfile.new (some fileAB) false 0)
          (some fileAB) 0 0 1).st (some fileAB) 0 0 2).st.entries ∧
    (load sampleParser (load sampleParser (Logfile.new (some fileAB) false 0)
          (some fileAB) 0 0 1).st (some fileAB) 0 0 2).st.logclasses_read =
      (load sampleParser (Logfile.new (some fileAB) false 0)
          (some fileAB) 0 0 1).st.logclasses_read ||| 2 :=
  load_sealed_exact sampleParser
    (load sampleParser (Logfile.new (some fileAB) false 0) (some fileAB) 0 0 1).st fileAB 0 0 2
    (by decide) (by decide) (by decide) (by decide)
    (by
      intro x
      have h : (load sampleParser (Logfile.new (some fileAB) false 0) (some fileAB) 0 0 1).st.entries
          = fileRecords sampleParser fileAB (load sampleParser (Logfile.new (some fileAB) false 0)
              (some fileAB) 0 0 1).st.logclasses_read := by decide
      rw [h])

/-- C7: on a sealed file whose content does not change, a second `load` with the
same arguments leaves the state (map, `_logclasses_read` and all) as the first
one left it, hands no line to the parser and sends no notification. -/
theorem load_sealed_idempotent (parse : Parser) (self : Logfile) (file : Option (List Nat))
    (since until_ : Int) (classes : Nat) (hw : self.watch = false) :
    (load parse (load parse self file since until_ classes).st file since until_ classes).st =
      (load parse self file since until_ classes).st ∧
    (load parse (load parse self file since until_ classes).st file since until_ classes).parsed
      = 0 ∧
    (load parse (load parse self file since until_ classes).st file since until_ classes).notified
      = 0 := by
  have hskip : ∀ st : Logfile, st.watch = false →
      classes &&& bnot32 st.logclasses_read = 0 →
      (load parse st file since until_ classes).st = st ∧
      (load parse st file since until_ classes).parsed = 0 ∧
      (load parse st file since until_ classes).notified = 0 := by
    intro st h1 h2
    rw [load_sealed_skip parse st file since until_ classes h1 h2]
    exact ⟨rfl, rfl, rfl⟩
  cases file with
  | none =>
    rw [load_none parse self since until_ classes, load_none]
    exact ⟨rfl, rfl, rfl⟩
  | some content =>
    by_cases hm : classes &&& bnot32 self.logclasses_read = 0
    · rw [load_sealed_skip parse self _ since until_ classes hw hm]
      exact hskip self hw hm
    · rw [load_sealed_scan parse self content since until_ classes hw hm]
      exact hskip _ hw (missing_after _ _)

/-- C7 on the sample file: a sealed instance loads class 0 twice. -/
theorem load_sealed_idempotent_witness :
    (load sampleParser (load sampleParser (Logfile.new (some fileAB) false 0) (some fileAB)
        0 0 1).st (some fileAB) 0 0 1).st =
      (load sampleParser (Logfile.new (some fileAB) false 0) (some fileAB) 0 0 1).st ∧
    (load sampleParser (load sampleParser (Logfile.new (some fileAB) false 0) (some fileAB)
        0 0 1).st (some fileAB) 0 0 1).parsed = 0 ∧
    (load sampleParser (load sampleParser (Logfile.new (some fileAB) false 0) (some fileAB)
        0 0 1).st (some fileAB) 0 0 1).notified = 0 :=
  load_sealed_idempotent sampleParser (Logfile.new (some fileAB) false 0) (some fileAB) 0 0 1
    (by decide)

/-! ## Loading a watched file: claims C5, C8 and C9 -/

theorem linesFrom_past_end (content : List Nat) (pos : Nat) (h : content.length ≤ pos) :
    linesFrom content pos = [] := by
  unfold linesFrom
  rw [List.drop_eq_nil_of_le h]
  rfl

/-- A `load` of a watched file with no class missing, when the saved position is at
or past the end of the file, reads nothing and changes nothing. -/
theorem load_watch_past_end (parse : Parser) (self : Logfile) (content : List Nat)
    (since until_ : Int) (classes : Nat) (hw : self.watch = true)
    (hm : classes &&& bnot32 self.logclasses_read = 0)
    (hpos : content.length ≤ self.read_pos) :
    load parse self (some content) since until_ classes = ⟨self, 0, 0⟩ := by
  obtain ⟨s, w, r, p, es⟩ := self
  simp only at hw hm hpos
  subst hw
  unfold load
  simp only [if_true, hm, ne_eq, not_true_eq_false, if_false, loadFile,
    linesFrom_past_end content p hpos, loadLoop, posAtEof, List.length_nil,
    max_eq_left hpos]
  split_ifs <;> rfl

/-- The first `load` of a freshly constructed watched instance runs only the pass
for the missing classes, and leaves in `_read_pos` the value it had at
construction. -/
theorem load_fresh_watch (parse : Parser) (file : Option (List Nat)) (content : List Nat)
    (since until_ : Int) (classes : Nat) (pos0 : Nat) :
    load parse (Logfile.new file true pos0) (some content) since until_ classes =
      ⟨{ (load parse (Logfile.new file true 0) (some content) since until_ classes).st with
          read_pos := pos0 },
        (load parse (Logfile.new file true 0) (some content) since until_ classes).parsed,
        (load parse (Logfile.new file true 0) (some content) since until_ classes).notified⟩ := by
  have hnew : ∀ p, Logfile.new file true p =
      { since := (Logfile.new file true 0).since, watch := true, logclasses_read := 0,
        read_pos := p, entries := [] } := by
    intro p
    unfold Logfile.new
    cases file with
    | none => rfl
    | some c => simp only []; split_ifs <;> rfl
  rw [hnew pos0, hnew 0]
  unfold load
  simp only [if_true, ne_eq, not_true_eq_false, if_false]
  split_ifs <;> rfl

/-- The state of a watched instance on `fileOne` after its first `load` for class 0,
when `_read_pos` held 0 at construction. -/
theorem first_load_state :
    (load sampleParser (Logfile.new (some fileOne) true 0) (some fileOne) 0 0 1).st =
      { since := 1000000100, watch := true, logclasses_read := 1, read_pos := 0,
        entries := fileRecords sampleParser fileOne 1 } := by
  decide

/-- Three calls of `load` for class 0 on a watched file, the third after the file
has grown from `fileOne` to `fileGrown`: whatever `_read_pos` held at
construction, the map ends up with the record of the first line only. -/
theorem three_loads_entries (pos0 : Nat) :
    (load sampleParser
      (load sampleParser
        (load sampleParser (Logfile.new (some fileOne) true pos0) (some fileOne) 0 0 1).st
        (some fileOne) 0 0 1).st
      (some fileGrown) 0 0 1).st.entries = fileRecords sampleParser fileOne 1 := by
  by_cases h : pos0 < 59
  · interval_cases pos0 <;> decide
  · have h1 : fileOne.length = 19 := by decide
    have h2 : fileGrown.length = 59 := by decide
    rw [load_fresh_watch, first_load_state]
    simp only []
    rw [load_watch_past_end _ _ fileOne 0 0 1 rfl (by show 1 &&& bnot32 1 = 0; decide) (by simp only [h1]; omega)]
    simp only []
    rw [load_watch_past_end _ _ fileGrown 0 0 1 rfl (by show 1 &&& bnot32 1 = 0; decide) (by simp only [h2]; omega)]

/-- C5 fails on the code: a watched instance on `fileOne` calls `load` for class 0
twice, the file grows to `fileGrown`, and `load` for class 0 is called again.
Whatever `_read_pos` held at construction, the appended line of class 0 (line 2,
a parseable line of the file) has no entry in the map that carries its time
stamp, class and payload. -/
theorem load_watch_incomplete (pos0 : Nat) :
    ∃ y ∈ fileRecords sampleParser fileGrown 1,
      ∀ x ∈ (load sampleParser
          (load sampleParser
            (load sampleParser (Logfile.new (some fileOne) true pos0) (some fileOne) 0 0 1).st
            (some fileOne) 0 0 1).st
          (some fileGrown) 0 0 1).st.entries,
        ¬ (x.2.time = y.2.time ∧ x.2.logclass = y.2.logclass ∧ x.2.text = y.2.text) := by
  rw [three_loads_entries]
  decide

/-- Two calls of `load` for class 0 on a watched file that grows in between from
`fileOne` to `fileGrown`, when `_read_pos` held at construction a value at or
past the end of `fileOne`: the second call leaves the map as the first left it. -/
theorem two_loads_entries (pos0 : Nat) (h : 19 ≤ pos0) :
    (load sampleParser
      (load sampleParser (Logfile.new (some fileOne) true pos0) (some fileOne) 0 0 1).st
      (some fileGrown) 0 0 1).st.entries = fileRecords sampleParser fileOne 1 := by
  by_cases h59 : pos0 < 59
  · interval_cases pos0 <;> decide
  · have h2 : fileGrown.length = 59 := by decide
    rw [load_fresh_watch, first_load_state]
    simp only []
    rw [load_watch_past_end _ _ fileGrown 0 0 1 rfl (by show 1 &&& bnot32 1 = 0; decide)
      (by simp only [h2]; omega)]

/-- C8 fails on the code: a fresh watched instance on `fileOne` calls `load` for
class 0, the file grows to `fileGrown` by a line of class 0 and a line of class
1, and `load` for class 0 is called again. When `_read_pos` held at construction
an offset from 19, the end of `fileOne`, to 59, the end of `fileGrown`, all of
them offsets inside the file, to which the seek of the resume pass succeeds, the
map after the second call is the map after the first: the appended parseable
line of class 0 has not been added. -/
theorem load_watch_growth_lost (pos0 : Nat) (h : 19 ≤ pos0) (h2 : pos0 ≤ 59) :
    (load sampleParser
      (load sampleParser (Logfile.new (some fileOne) true pos0) (some fileOne) 0 0 1).st
      (some fileGrown) 0 0 1).st.entries =
      (load sampleParser (Logfile.new (some fileOne) true pos0) (some fileOne) 0 0 1).st.entries ∧
    (fileRecords sampleParser fileGrown 1).length =
      (load sampleParser (Logfile.new (some fileOne) true pos0)
        (some fileOne) 0 0 1).st.entries.length + 1 := by
  have _hin : pos0 ≤ fileGrown.length := h2
  rw [two_loads_entries pos0 h, load_fresh_watch, first_load_state]
  simp only []
  decide

/-- C8 fails on the code when `_read_pos` held 19, the end of `fileOne`, at
construction. -/
theorem load_watch_growth_lost_witness :
    (load sampleParser
      (load sampleParser (Logfile.new (some fileOne) true 19) (some fileOne) 0 0 1).st
      (some fileGrown) 0 0 1).st.entries =
      (load sampleParser (Logfile.new (some fileOne) true 19) (some fileOne) 0 0 1).st.entries ∧
    (fileRecords sampleParser fileGrown 1).length =
      (load sampleParser (Logfile.new (some fileOne) true 19)
        (some fileOne) 0 0 1).st.entries.length + 1 :=
  load_watch_growth_lost 19 (by decide) (by decide)

/-- C9 fails on the code: the first `load` of a fresh watched instance ends with
`_logclasses_read` non-empty and leaves in `_read_pos` the value it held at
construction, not the offset of the end of the file: on `fileAB`, of 38 bytes,
an instance constructed with 0 in `_read_pos` ends with 0. -/
theorem load_first_cursor :
    (∀ pos0, (load sampleParser (Logfile.new (some fileAB) true pos0) (some fileAB)
        0 0 1).st.read_pos = pos0) ∧
    (load sampleParser (Logfile.new (some fileAB) true 0) (some fileAB) 0 0 1).st.logclasses_read
      = 1 ∧
    (load sampleParser (Logfile.new (some fileAB) true 0) (some fileAB) 0 0 1).st.read_pos = 0 ∧
    fileAB.length = 38 := by
  refine ⟨?_, by decide, by decide, by decide⟩
  intro pos0
  rw [load_fresh_watch]

/-! ## Eviction: claims C11 and C12 -/

/-- C11 fails on the code: a sealed instance has loaded the classes 0 and 1 of
`fileFour`, so that its map holds the entries of the lines 2, 1, 4 and 3 in key
order, those of the lines 1 and 4 of class 0. The loop of `freeMessages(1)`
passes the entry of line 2, erases the entry of line 1 and then increments the
erased iterator: it has no defined continuation, and at that moment the map
still holds an entry of class 0, the one of line 4. The call has no defined
result, and so no state in which the map is free of class 0. -/
theorem freeMessages_post_undefined :
    loadedFour.entries.map (fun x => (x.1, x.2.logclass)) =
      [(makeKey 1000000005 2, 1), (makeKey 1000000010 1, 0), (makeKey 1000000020 4, 0),
        (makeKey 1000000050 3, 1)] ∧
    freeLoop 1 loadedFour.entries loadedFour.entries 0 =
      FreeOutcome.undefined (mapErase (makeKey 1000000010 1) loadedFour.entries) 1 ∧
    (∃ x ∈ mapErase (makeKey 1000000010 1) loadedFour.entries,
      x.1 = makeKey 1000000020 4 ∧ classBit x.2.logclass 1 = true) ∧
    freeMessages loadedFour 1 = none :=
  ⟨by decide, by decide, by decide, by decide⟩

/-- C12 fails on the code: in the map a sealed instance has after loading the
classes 0 and 1 of `fileFour`, two of the four entries have their class in the
mask 1. The loop of `freeMessages(1)` stops being defined at the increment that
follows the first erasure: the counter stands at 1, not at 2, the map holds
three entries, and the call returns no count. -/
theorem freeMessages_count_undefined :
    loadedFour.entries.length = 4 ∧
    (loadedFour.entries.filter (fun x => classBit x.2.logclass 1)).length = 2 ∧
    (∃ es, freeLoop 1 loadedFour.entries loadedFour.entries 0 = FreeOutcome.undefined es 1 ∧
      es.length = 3 ∧ (es.filter (fun x => classBit x.2.logclass 1)).length = 1) ∧
    (freeMessages loadedFour 1).map (fun r => r.2) = none :=
  ⟨by decide, by decide, ⟨mapErase (makeKey 1000000010 1) loadedFour.entries,
    by decide, by decide, by decide⟩, by decide⟩

/-! ## The composite key: claim C14 -/

/-- C14: for time stamps `0 <= t < 2^32` and line numbers of 32 bits, `makeKey` orders
the pairs (time stamp, line number) lexicographically, it is injective, and the
time stamp and the line number are recovered as `key / 2^32` and `key mod 2^32`. -/
theorem makeKey_order (t1 t2 : Int) (l1 l2 : Nat)
    (h1 : 0 ≤ t1 ∧ t1 < 4294967296) (h2 : 0 ≤ t2 ∧ t2 < 4294967296)
    (hl1 : l1 < 4294967296) (hl2 : l2 < 4294967296) :
    (makeKey t1 l1 < makeKey t2 l2 ↔ t1 < t2 ∨ (t1 = t2 ∧ l1 < l2)) ∧
    (makeKey t1 l1 = makeKey t2 l2 → t1 = t2 ∧ l1 = l2) ∧
    ((makeKey t1 l1 / 4294967296 : Nat) : Int) = t1 ∧
    makeKey t1 l1 % 4294967296 = l1 := by
  rw [makeKey_eq t1 l1 h1.1 h1.2, makeKey_eq t2 l2 h2.1 h2.2,
    Nat.mod_eq_of_lt hl1, Nat.mod_eq_of_lt hl2]
  obtain ⟨n1, rfl⟩ := Int.eq_ofNat_of_zero_le h1.1
  obtain ⟨n2, rfl⟩ := Int.eq_ofNat_of_zero_le h2.1
  simp only [Int.toNat_ofNat]
  have hn1 : n1 < 4294967296 := by omega
  have hn2 : n2 < 4294967296 := by omega
  refine ⟨?_, ?_, ?_, ?_⟩
  · constructor
    · intro h
      by_cases hlt : n1 < n2
      · exact Or.inl (by omega)
      · have hge : n2 ≤ n1 := not_lt.1 hlt
        have hmul : n2 * 4294967296 ≤ n1 * 4294967296 := Nat.mul_le_mul_right _ hge
        by_cases heq : n1 = n2
        · subst heq
          exact Or.inr ⟨rfl, by omega⟩
        · have : n2 + 1 ≤ n1 := by omega
          have hmul2 : (n2 + 1) * 4294967296 ≤ n1 * 4294967296 := Nat.mul_le_mul_right _ this
          omega
    · rintro (h | ⟨h, hl⟩)
      · have : n1 + 1 ≤ n2 := by omega
        have hmul2 : (n1 + 1) * 4294967296 ≤ n2 * 4294967296 := Nat.mul_le_mul_right _ this
        omega
      · have : n1 = n2 := by omega
        subst this
        omega
  · intro h
    have hd : (n1 * 4294967296 + l1) / 4294967296 = (n2 * 4294967296 + l2) / 4294967296 := by
      rw [h]
    have hm : (n1 * 4294967296 + l1) % 4294967296 = (n2 * 4294967296 + l2) % 4294967296 := by
      rw [h]
    have e1 : (n1 * 4294967296 + l1) / 4294967296 = n1 := by omega
    have e2 : (n2 * 4294967296 + l2) / 4294967296 = n2 := by omega
    have e3 : (n1 * 4294967296 + l1) % 4294967296 = l1 := by omega
    have e4 : (n2 * 4294967296 + l2) % 4294967296 = l2 := by omega
    rw [e1, e2] at hd
    rw [e3, e4] at hm
    exact ⟨by omega, hm⟩
  · have e1 : (n1 * 4294967296 + l1) / 4294967296 = n1 := by omega
    rw [e1]
  · omega

/-- C14 at two keys of the same second: lines 7 and 8 at time 1000000100. -/
theorem makeKey_order_witness :
    (makeKey 1000000100 7 < makeKey 1000000100 8 ↔
      (1000000100 : Int) < 1000000100 ∨ ((1000000100 : Int) = 1000000100 ∧ 7 < 8)) ∧
    (makeKey 1000000100 7 = makeKey 1000000100 8 → (1000000100 : Int) = 1000000100 ∧ 7 = 8) ∧
    ((makeKey 1000000100 7 / 4294967296 : Nat) : Int) = 1000000100 ∧
    makeKey 1000000100 7 % 4294967296 = 7 :=
  makeKey_order 1000000100 1000000100 7 8 (by decide) (by decide) (by decide) (by decide)

/-! ## flush: claim C15 -/

/-- C15, as stated, fails: a watched instance on `fileOne`, constructed with 0 in
`_read_pos`, has the position 19 after two calls of `load`; after `flush` the
position is still 19, not the value it had at construction. -/
theorem flush_cursor_counterexample :
    ¬ ((flush (load sampleParser
          (load sampleParser (Logfile.new (some fileOne) true 0) (some fileOne) 0 0 1).st
          (some fileOne) 0 0 1).st).read_pos =
        (Logfile.new (some fileOne) true 0).read_pos) := by
  decide

/-- C15, amended: after `flush` the map holds no entry and `_logclasses_read` is
empty; `_read_pos` (like the other members) is left as it was. -/
theorem flush_clears (self : Logfile) :
    (flush self).entries = [] ∧ (flush self).logclasses_read = 0 ∧
    (flush self).read_pos = self.read_pos ∧
    (flush self).since = self.since ∧ (flush self).watch = self.watch :=
  ⟨rfl, rfl, rfl, rfl, rfl⟩

/-! ## The header probe: claims C17 and C18 -/

theorem take12_length (content : List Nat) :
    (content.take 12).length ≠ 12 ↔ content.length < 12 := by
  rw [List.length_take]
  omega

theorem getD_take12 (content : List Nat) (i : Nat) (hi : i < 12) :
    (content.take 12).getD i 0 = content.getD i 0 := by
  simp [List.getD_eq_getElem?_getD, List.getElem?_take, hi]

/-- C17, as stated, fails: the first 12 bytes `[12345abcde]` do not hold ten
decimal digits, but the brackets are in place and the nominal start time of the
instance is 12345, not zero. -/
theorem header_pattern_counterexample :
    ¬ (headerMatches (bytes "[12345abcde] A one\n") = false →
        (Logfile.new (some (bytes "[12345abcde] A one\n")) false 0).since = 0) := by
  decide

/-- C17, amended: for every file the constructor yields an instance with an empty
map and empty `_logclasses_read`; its nominal start time is zero whenever the
file cannot be opened, holds fewer than 12 bytes, or does not have `[` as its
first byte and `]` as its twelfth. -/
theorem new_probe_failure (file : Option (List Nat)) (watch : Bool) (pos0 : Nat) :
    (Logfile.new file watch pos0).entries = [] ∧
    (Logfile.new file watch pos0).logclasses_read = 0 ∧
    (Logfile.new file watch pos0).watch = watch ∧
    (file = none → (Logfile.new file watch pos0).since = 0) ∧
    (∀ content, file = some content →
      content.length < 12 ∨ content.getD 0 0 ≠ 91 ∨ content.getD 11 0 ≠ 93 →
      (Logfile.new file watch pos0).since = 0) := by
  cases file with
  | none => exact ⟨rfl, rfl, rfl, fun _ => rfl, fun c h => absurd h (by simp)⟩
  | some c =>
    unfold Logfile.new
    simp only []
    refine ⟨?_, ?_, ?_, ?_, ?_⟩
    · split_ifs <;> rfl
    · split_ifs <;> rfl
    · split_ifs <;> rfl
    · intro h; exact absurd h (by simp)
    · intro content hc hbad
      simp only [Option.some.injEq] at hc
      subst hc
      rw [getD_take12 c 0 (by norm_num), getD_take12 c 11 (by norm_num)]
      by_cases h1 : (List.take 12 c).length ≠ 12
      · rw [if_pos h1]
      · have h2 : ¬ c.length < 12 := fun h => h1 ((take12_length c).2 h)
        have h3 : c.getD 0 0 ≠ 91 ∨ c.getD 11 0 ≠ 93 := by
          rcases hbad with h | h
          · exact absurd h h2
          · exact h
        rw [if_neg h1, if_pos h3]

theorem atoiDigits_eq_foldl (l : List Nat) (acc : Nat) (h : l.all isDigit = true) :
    atoiDigits l acc = l.foldl (fun a c => a * 10 + (c - 48)) acc := by
  induction l generalizing acc with
  | nil => rfl
  | cons c cs ih =>
    simp only [List.all_cons, Bool.and_eq_true] at h
    have hc : 48 ≤ c ∧ c ≤ 57 := by simpa [isDigit] using h.1
    simp only [atoiDigits, hc, and_self, if_true, List.foldl_cons]
    exact ih _ h.2

theorem cstr_digits (l : List Nat) (h : l.all isDigit = true) : cstr l = l := by
  unfold cstr
  rw [List.takeWhile_eq_self_iff]
  intro c hc
  have := List.all_eq_true.1 h c hc
  have hd : 48 ≤ c ∧ c ≤ 57 := by simpa [isDigit] using this
  simp only [bne_iff_ne, ne_eq]
  omega

theorem toInt32_small (v : Nat) (h : v < 2147483648) : toInt32 (v : Int) = v := by
  unfold toInt32
  omega

/-- The function `atoi` on a string of ten digits whose value fits an `int`. -/
theorem atoi_digits (l : List Nat) (hl : l.length = 10) (h : l.all isDigit = true)
    (hv : decimalValue l < 2147483648) : atoi l = decimalValue l := by
  cases l with
  | nil => simp at hl
  | cons c cs =>
    have hall := h
    simp only [List.all_cons, Bool.and_eq_true] at h
    have hc : 48 ≤ c ∧ c ≤ 57 := by simpa [isDigit] using h.1
    have hsp : isspace c = false := by
      simp only [isspace, decide_eq_false_iff_not]
      omega
    have hdrop : List.dropWhile isspace (c :: cs) = c :: cs := by
      simp [List.dropWhile_cons, hsp]
    have h45 : c ≠ 45 := by omega
    have h43 : c ≠ 43 := by omega
    have key : atoi (c :: cs) = toInt32 (atoiDigits (c :: cs) 0 : Int) := by
      unfold atoi
      rw [hdrop]
      unfold atoi.match_1
      simp only [dif_neg h45, dif_neg h43]
    rw [key, atoiDigits_eq_foldl _ _ hall]
    exact toInt32_small _ hv

/-- C18, as stated, fails: the header `[9999999999]` holds ten decimal digits, but
their value does not fit the `int` that `atoi` returns, and the nominal start time
of the instance is not 9999999999. -/
theorem header_value_counterexample :
    ¬ (headerMatches (bytes "[9999999999] A one\n") = true →
        (Logfile.new (some (bytes "[9999999999] A one\n")) false 0).since =
          decimalValue (((bytes "[9999999999] A one\n").drop 1).take 10)) := by
  decide

/-- C18, amended: for every file whose first 12 bytes are `[`, ten decimal digits
and `]`, when the decimal value of the ten digits is below `2^31` (it fits the
`int` that `atoi` returns), the nominal start time of the constructed instance is
that value. -/
theorem new_probe_value (content : List Nat) (watch : Bool) (pos0 : Nat)
    (hm : headerMatches content = true)
    (hv : decimalValue ((content.drop 1).take 10) < 2147483648) :
    (Logfile.new (some content) watch pos0).since =
      decimalValue ((content.drop 1).take 10) := by
  simp only [headerMatches, Bool.decide_and, Bool.decide_eq_true, Bool.and_eq_true,
    decide_eq_true_eq] at hm
  obtain ⟨hlen, h0, hd, h11⟩ := hm
  have h1 : ¬ (List.take 12 content).length ≠ 12 := by
    rw [take12_length]; omega
  have h3 : ¬ ((List.take 12 content).getD 0 0 ≠ 91 ∨ (List.take 12 content).getD 11 0 ≠ 93) := by
    rw [getD_take12 content 0 (by norm_num), getD_take12 content 11 (by norm_num)]
    rintro (h | h)
    · exact h h0
    · exact h h11
  have hds : ((List.take 12 content).drop 1).take 10 = (content.drop 1).take 10 := by
    rw [List.drop_take, List.take_take]
    norm_num
  have hl10 : ((content.drop 1).take 10).length = 10 := by
    rw [List.length_take, List.length_drop]; omega
  unfold Logfile.new
  simp only []
  rw [if_neg h1, if_neg h3]
  simp only [hds, cstr_digits _ hd]
  exact atoi_digits _ hl10 hd hv

/-- C18, amended, on the sample file: its header holds the value 1000000100. -/
theorem new_probe_value_witness :
    (Logfile.new (some fileAB) false 0).since = decimalValue ((fileAB.drop 1).take 10) :=
  new_probe_value fileAB false 0 (by decide) (by decide)

/-! ## The empty forward window: claim C19 -/

theorem lower_bound_head (key : Nat) (es : Entries) (x : Nat × LogEntry) (rest : Entries)
    (h : lower_bound key es = x :: rest) : x ∈ es ∧ key ≤ x.1 := by
  induction es with
  | nil => simp [lower_bound] at h
  | cons y ys ih =>
    obtain ⟨k, v⟩ := y
    by_cases hk : k < key
    · simp only [lower_bound, hk, if_true] at h
      exact ⟨List.mem_cons_of_mem _ (ih h).1, (ih h).2⟩
    · simp only [lower_bound, hk, if_false, List.cons.injEq] at h
      rw [← h.1]
      exact ⟨List.mem_cons_self _ _, not_lt.1 hk⟩

/-- In a well-formed map an entry whose key is not below `makeKey t 0` has a time
stamp that is not below `t`, for every `t < 2^32`. -/
theorem time_ge_of_key_ge (x : Nat × LogEntry) (t : Int)
    (hx : (0 ≤ x.2.time ∧ x.2.time < 4294967296) ∧ x.1 = makeKey x.2.time (x.1 % 4294967296))
    (ht : t < 4294967296) (h : makeKey t 0 ≤ x.1) : t ≤ x.2.time := by
  by_cases h0 : 0 ≤ t
  · by_contra hc
    have := (key_lt_sincekey x t hx h0 ht).2 (not_le.1 hc)
    omega
  · omega

/-- C19, as stated, fails. First: the map holds an entry with the negative time
stamp -1, whose key is the largest; `answerQuery` over the window from 5 to 5
hands it to the consumer. Second: with `t = 2^32 + 5` the start key wraps around
to that of time 5, and a fresh sealed instance on the sample file queried over
the window from `t` to `t` hands its first entry to the consumer. -/
theorem empty_window_counterexample :
    ¬ ((answerQuery sampleParser continueSink
          { since := 0, watch := false, logclasses_read := 1, read_pos := 0,
            entries := [(makeKey (-1) 1, { lineno := 1, time := -1, logclass := 0, text := [] })] }
          none () 5 5 1).scan.visited = []) ∧
    ¬ ((answerQuery sampleParser continueSink (Logfile.new (some fileAB) false 0)
          (some fileAB) () 4294967301 4294967301 3).scan.visited = []) := by
  decide

/-- C19, amended: for every `t < 2^32`, every class mask and every consumer, on a
map whose time stamps `s` (cached or parsed) all have `0 <= s < 2^32`,
`answerQuery` over the window from `t` to `t` never calls the consumer: the
first candidate, if there is one, has a time stamp at or after `until`. -/
theorem answerQuery_empty_window {σ : Type} (parse : Parser) (sink : Sink σ) (self : Logfile)
    (file : Option (List Nat)) (q : σ) (t : Int) (classes : Nat)
    (hp : ParserInRange parse) (hwf : CacheWF self.entries) (ht : t < 4294967296) :
    (answerQuery parse sink self file q t t classes).scan.visited = [] ∧
    (answerQuery parse sink self file q t t classes).scan.stopped = false ∧
    (answerQuery parse sink self file q t t classes).scan.query = q := by
  have hwf2 := load_wf parse self file t t classes hp hwf
  unfold answerQuery
  simp only []
  cases hl : lower_bound (makeKey t 0) (load parse self file t t classes).st.entries with
  | nil => exact ⟨rfl, rfl, rfl⟩
  | cons x rest =>
    obtain ⟨hmem, hkey⟩ := lower_bound_head _ _ x rest hl
    have hge : x.2.time ≥ t := time_ge_of_key_ge x t (hwf2.2 x hmem) ht hkey
    obtain ⟨k, e⟩ := x
    simp only [scanForward, hge, if_true, and_self]

/-- C19, amended, on the sample file: a fresh sealed instance queried for both
classes over the window from 1000000100 to 1000000100. -/
theorem answerQuery_empty_window_witness :
    (answerQuery sampleParser continueSink (Logfile.new (some fileAB) false 0) (some fileAB) ()
      1000000100 1000000100 3).scan.visited = [] ∧
    (answerQuery sampleParser continueSink (Logfile.new (some fileAB) false 0) (some fileAB) ()
      1000000100 1000000100 3).scan.stopped = false ∧
    (answerQuery sampleParser continueSink (Logfile.new (some fileAB) false 0) (some fileAB) ()
      1000000100 1000000100 3).scan.query = () :=
  answerQuery_empty_window sampleParser continueSink (Logfile.new (some fileAB) false 0)
    (some fileAB) () 1000000100 3 sampleParser_inRange (by decide) (by decide)

/-! ## Notifications and line numbers: claims C13 and C20 -/

/-- C13 fails on the code. First: a watched instance on `fileOne`, constructed with 0
in `_read_pos`, calls `load` for class 0 twice; the second call reads line 1
again, finds its key in the map, inserts nothing and still sends one
notification. Second: constructed with 19 in `_read_pos`, after the file has
grown to `fileGrown` the second call numbers the appended line 1, finds that key
in the map, inserts nothing and sends one notification. -/
theorem load_notifies_duplicate :
    ((load sampleParser
        (load sampleParser (Logfile.new (some fileOne) true 0) (some fileOne) 0 0 1).st
        (some fileOne) 0 0 1).notified = 1 ∧
     (load sampleParser
        (load sampleParser (Logfile.new (some fileOne) true 0) (some fileOne) 0 0 1).st
        (some fileOne) 0 0 1).st.entries =
      (load sampleParser (Logfile.new (some fileOne) true 0) (some fileOne) 0 0 1).st.entries) ∧
    ((load sampleParser
        (load sampleParser (Logfile.new (some fileOne) true 19) (some fileOne) 0 0 1).st
        (some fileGrown) 0 0 1).notified = 1 ∧
     (load sampleParser
        (load sampleParser (Logfile.new (some fileOne) true 19) (some fileOne) 0 0 1).st
        (some fileGrown) 0 0 1).st.entries =
      (load sampleParser (Logfile.new (some fileOne) true 19) (some fileOne) 0 0 1).st.entries) := by
  decide

/-- C20 fails on the code. First: a watched instance on `fileOne`, constructed with 0
in `_read_pos`, calls `load` for class 0 twice, the file grows to `fileLater`, and
`load` for class 0 is called again: the appended line, line 2 of the file, is
cached under the key of line number 1. Second: a watched instance on
`fileLater`, constructed with 19 in `_read_pos`, calls `load` for class 0 twice:
line 2 is cached under the key of line number 2 and under the key of line
number 1. -/
theorem load_resume_line_numbers :
    ((makeKey 1000000200 1,
        ({ lineno := 1, time := 1000000200, logclass := 0,
           text := bytes "[1000000200] A two" } : LogEntry)) ∈
      (load sampleParser
        (load sampleParser
          (load sampleParser (Logfile.new (some fileOne) true 0) (some fileOne) 0 0 1).st
          (some fileOne) 0 0 1).st
        (some fileLater) 0 0 1).st.entries ∧
     mapFind (makeKey 1000000200 2)
      (load sampleParser
        (load sampleParser
          (load sampleParser (Logfile.new (some fileOne) true 0) (some fileOne) 0 0 1).st
          (some fileOne) 0 0 1).st
        (some fileLater) 0 0 1).st.entries = none) ∧
    ((load sampleParser
        (load sampleParser (Logfile.new (some fileLater) true 19) (some fileLater) 0 0 1).st
        (some fileLater) 0 0 1).st.entries.map (fun x => (x.1, x.2.text)) =
      [(makeKey 1000000100 1, bytes "[1000000100] A one"),
       (makeKey 1000000200 1, bytes "[1000000200] A two"),
       (makeKey 1000000200 2, bytes "[1000000200] A two")]) := by
  decide

/-! ## Eviction followed by a reload: claim C16 -/

/-- C16 fails on the code: a sealed instance has loaded the classes 0 and 1 of
`fileAB`; its map holds the entry of line 1, of class 0, and after it the entry
of line 2, of class 1. The loop of `freeMessages(2)` passes the first entry,
erases the second, the last of the map, and then increments the erased
iterator: the call has no defined result, and neither has the sequence of
`load(3)`, `freeMessages(2)`, `load(3)`, where `load(3)` alone leaves the two
entries and `_logclasses_read` = 3. -/
theorem evict_reload_undefined :
    loadedAB.entries.map (fun x => (x.1, x.2.logclass)) =
      [(makeKey 1000000100 1, 0), (makeKey 1000000200 2, 1)] ∧
    loadedAB.logclasses_read = 3 ∧
    freeLoop 2 loadedAB.entries loadedAB.entries 0 =
      FreeOutcome.undefined (mapErase (makeKey 1000000200 2) loadedAB.entries) 1 ∧
    freeMessages loadedAB 2 = none ∧
    (freeMessages loadedAB 2).map
      (fun r => (load sampleParser r.1 (some fileAB) 0 0 3).st) = none :=
  ⟨by decide, by decide, by decide, by decide, by decide⟩

end Livestatus
